import Mathlib

/-!
Verification of the selective-disclosure Merkle engine of the Concerto
repository (packages/concerto-core/lib/merkle): the salt, root, proof and
verify visitors, the `Merkle` facade, and the helpers in
lib/merkle/utils.js.

The JavaScript source is shallowly embedded:
* `Buffer`s are `List Nat` of byte values;
* the external SHA-256 primitive (`crypto.createHash('sha256')`) is a
  parameter `sha : Bytes → Bytes`; a streaming `update`/`digest` sequence
  becomes `sha` of the concatenation of the updates;
* the heterogeneous runtime values of typed records are the inductive
  `Value`; a `Resource` is the `Value.vres` constructor carrying its
  fully-qualified type, its property map and its salt store;
* JavaScript exceptions become `Except Err`; `TypeError`s raised by
  built-ins (property access on `null`/`undefined`, `hash.update(undefined)`,
  destructuring `undefined`) become `Err.typeError`;
* object mutation through reference aliasing becomes explicit state
  passing: every visitor returns the (possibly rebuilt) record next to its
  result, and a recursion's result is written back into the parent field
  it was read from;
* the visitors recurse through the model manager, so they carry an explicit
  `fuel : Nat` bound on the call depth (the JavaScript call stack); fuel
  exhaustion is `Err.stackOverflow` and every theorem supplies enough fuel.
-/

set_option maxRecDepth 100000

namespace Concerto

/-- Byte sequences (the model of Node `Buffer`s). -/
abbrev Bytes := List Nat

/-- Lowercase hexadecimal digit for a nibble, as produced by
`Buffer.toString('hex')`. -/
def hexDigitChar (n : Nat) : Char :=
  if n < 10 then Char.ofNat (48 + n) else Char.ofNat (87 + n)

/-- The two lowercase hex characters of one byte. -/
def hexByte (b : Nat) : List Char :=
  [hexDigitChar (b / 16), hexDigitChar (b % 16)]

/-- `Buffer.toString('hex')`: lowercase hex encoding of a byte sequence. -/
def toHex (bs : Bytes) : String :=
  ⟨(bs.map hexByte).flatten⟩

/-- Value of one hex character, `none` for a non-hex character. -/
def hexVal (c : Char) : Option Nat :=
  if 48 ≤ c.toNat ∧ c.toNat ≤ 57 then some (c.toNat - 48)
  else if 97 ≤ c.toNat ∧ c.toNat ≤ 102 then some (c.toNat - 87)
  else if 65 ≤ c.toNat ∧ c.toNat ≤ 70 then some (c.toNat - 55)
  else none

/-- `Buffer.from(s, 'hex')` on a character list: parse pairs of hex digits,
stopping at the first invalid pair or at a trailing odd digit. -/
def fromHexChars : List Char → Bytes
  | c1 :: c2 :: rest =>
    match hexVal c1, hexVal c2 with
    | some h, some l => (16 * h + l) :: fromHexChars rest
    | _, _ => []
  | _ => []

/-- `Buffer.from(s, 'hex')`. -/
def fromHex (s : String) : Bytes :=
  fromHexChars s.data

/-- UTF-8 encoding of one code point. -/
def utf8Char (c : Char) : Bytes :=
  let n := c.toNat
  if n < 128 then [n]
  else if n < 2048 then [192 + n / 64, 128 + n % 64]
  else if n < 65536 then [224 + n / 4096, 128 + (n / 64) % 64, 128 + n % 64]
  else [240 + n / 262144, 128 + (n / 4096) % 64, 128 + (n / 64) % 64, 128 + n % 64]

/-- UTF-8 bytes of a string (`hash.update(s, 'utf8')`). -/
def utf8 (s : String) : Bytes :=
  (s.data.map utf8Char).flatten

/-- JSON escape of one character inside a double-quoted string, as
performed by `JSON.stringify`. -/
def jsonEscapeChar (c : Char) : List Char :=
  if c = '\x22' then ['\\', '\x22']
  else if c = '\\' then ['\\', '\\']
  else if c = '\x08' then ['\\', 'b']
  else if c = '\x0c' then ['\\', 'f']
  else if c = '\n' then ['\\', 'n']
  else if c = '\x0d' then ['\\', 'r']
  else if c = '\t' then ['\\', 't']
  else if c.toNat < 32 then
    ['\\', 'u', '0', '0', hexDigitChar (c.toNat / 16), hexDigitChar (c.toNat % 16)]
  else [c]

/-- `JSON.stringify` of a string value: double quotes around the escaped
characters. -/
def jsonStringQuote (s : String) : String :=
  ⟨'\x22' :: ((s.data.map jsonEscapeChar).flatten ++ ['\x22'])⟩

/-- Runtime values held by a typed record.  `vres` is a `Resource`: its
fully-qualified type, its property map (`name → value`) and its salt store
(`name → salt bytes`) as ordered association lists.  `vrel` is a
`Relationship` instance and `vundefined` is JavaScript `undefined`. -/
inductive Value where
  | vstr (s : String)
  | vbool (b : Bool)
  | vint (n : Int)
  | vres (fqn : String) (fields : List (String × Value)) (salts : List (String × Bytes))
  | vrel
  | vundefined

/-- Model of `JSON.stringify` restricted to the values the engines hash.
`undefined` stringifies to `undefined` (`none` here); the visitors only
ever reach the object cases on records that violate the schema, so the
exact object serialisation is irrelevant and a fixed placeholder is
used. -/
def jsonStringify : Value → Option String
  | .vstr s => some (jsonStringQuote s)
  | .vbool b => some (if b then "true" else "false")
  | .vint n => some (toString n)
  | .vres _ _ _ => some ("\x7b\x7d")
  | .vrel => some ("\x7b\x7d")
  | .vundefined => none

/-- The classifier of a class property, as exposed by the
schema-introspection interface (`Field.isArray`, `Field.isPrimitive`,
`ModelUtil.isEnum`, `instanceof RelationshipDeclaration`).  A nested-class
field carries its declared fully-qualified type name
(`Field.getFullyQualifiedTypeName`). -/
inductive PropKind where
  | primitive
  | nestedClass (fqn : String)
  | array
  | enumeration
  | relationship
deriving DecidableEq, Repr

/-- One declared property: a name and a classifier. -/
structure PropDecl where
  name : String
  kind : PropKind
deriving DecidableEq, Repr

/-- A class declaration: its ordered property list
(`ClassDeclaration.getProperties`). -/
structure ClassDecl where
  props : List PropDecl
deriving DecidableEq, Repr

/-- The model manager, as consumed by the engines: a map from
fully-qualified type names to class declarations (`ModelManager.getType`). -/
abbrev ModelManager := List (String × ClassDecl)

/-- Lookup in an ordered association list (JavaScript property read). -/
def alistLookup {α : Type} (k : String) : List (String × α) → Option α
  | [] => none
  | (k', v) :: rest => if k' = k then some v else alistLookup k rest

/-- Update in an ordered association list: overwrite the first binding in
place, or append (JavaScript property write). -/
def alistSet {α : Type} (k : String) (v : α) : List (String × α) → List (String × α)
  | [] => [(k, v)]
  | (k', v') :: rest => if k' = k then (k, v) :: rest else (k', v') :: alistSet k v rest

/-- Write a recursion's record result back into the parent field it was
read from.  This models reference aliasing: the nested object the child
visitor mutated is the same object the parent's property points at.  A
property that was absent is not created. -/
def writeBack (n : String) (v : Value) (fields : List (String × Value)) :
    List (String × Value) :=
  match alistLookup n fields with
  | some _ => alistSet n v fields
  | none => fields

/-- The property value `typed[name]`: `undefined` when absent. -/
def getField (n : String) (fields : List (String × Value)) : Value :=
  (alistLookup n fields).getD .vundefined

/-- The errors the engines can raise.  The first block are the `Error`s
thrown by the visitors themselves; `typeError` stands for the `TypeError`s
raised by JavaScript built-ins; `typeNotFound` is the model manager's
failure; `stackOverflow` is call-stack exhaustion.  `saltMissing` and
`pathInvalid` are the error kinds named by the specification's taxonomy:
no code path of the source produces them, they exist in the model so that
the specification's claims about them can be stated. -/
inductive Err where
  | unrecognised
  | expectedResource
  | expectedRelationship
  | notImplementedRelationships
  | notImplementedArrays
  | notImplementedEnums
  | typeError (context : String)
  | typeNotFound (fqn : String)
  | stackOverflow
  | saltMissing
  | pathInvalid
deriving DecidableEq, Repr

/-- The message text carried by each error, as thrown by the source. -/
def errMessage : Err → String
  | .unrecognised => "Unrecognised"
  | .expectedResource => "Expected a Resource"
  | .expectedRelationship => "Expected a Relationship"
  | .notImplementedRelationships => "Not implemented for Relationships"
  | .notImplementedArrays => "Not implemented for Array fields"
  | .notImplementedEnums => "Not implemented for Enum fields"
  | .typeError c => c
  | .typeNotFound f => f
  | .stackOverflow => "Maximum call stack size exceeded"
  | .saltMissing => "Salt missing"
  | .pathInvalid => "Path invalid"

/-- Whether an `Except` result is a `TypeError`. -/
def exceptIsTypeError {α : Type} : Except Err α → Bool
  | .error (.typeError _) => true
  | _ => false

/-- lib/merkle/utils.js `pathEquals`: length check, then element-wise
comparison. -/
def pathEquals (p1 p2 : List String) : Bool :=
  if p1.length ≠ p2.length then false
  else (p1.zip p2).all fun q => q.1 = q.2

/-- Does `s` contain `pat` as a contiguous substring, matching at the
head? -/
def matchesAt : List Char → List Char → Bool
  | _, [] => true
  | [], _ :: _ => false
  | c :: r, p :: ps => c = p && matchesAt r ps

/-- Does `s` contain `pat` as a contiguous substring anywhere? -/
def listHasRun : List Char → List Char → Bool
  | s, [] => s.isEmpty || true
  | [], _ :: _ => false
  | c :: rest, p :: ps => matchesAt (c :: rest) (p :: ps) || listHasRun rest (p :: ps)

/-- Substring test on strings (used to state claims about error
context). -/
def strContains (s pat : String) : Bool :=
  listHasRun s.data pat.data

/-! ## The salt visitor (lib/merkle/saltvisitor.js)

`visitClassDeclaration` pops the typed object, walks the properties in
declaration order, pushes each property value and dispatches; a returned
salt is stored with `typed.setSalt(name, salt)`.  `visitField` draws 32
random bytes for a primitive, recurses through the model manager for a
nested class, and throws for arrays, enums and relationships.  The random
source `crypto.randomBytes(32)` is modelled by a supply `rng : Nat → Bytes`
indexed by a draw counter that is threaded through the walk. -/

/-- The property loop of `SaltVisitor.visitClassDeclaration`: read the
value, visit the property, write the (aliased) value back, store a
returned salt. -/
def saltVisitProps
    (visitProp : PropDecl → Value → Nat → Except Err (Option Bytes × Value × Nat)) :
    List PropDecl → List (String × Value) → List (String × Bytes) → Nat →
    Except Err (List (String × Value) × List (String × Bytes) × Nat)
  | [], fields, salts, ctr => .ok (fields, salts, ctr)
  | q :: rest, fields, salts, ctr => do
    let value := getField q.name fields
    let (saltOpt, v', ctr') ← visitProp q value ctr
    let fields' := writeBack q.name v' fields
    let salts' := match saltOpt with
      | some s => alistSet q.name s salts
      | none => salts
    saltVisitProps visitProp rest fields' salts' ctr'

/-- `SaltVisitor.visitField` / `visitRelationshipDeclaration`, dispatched
on the property classifier, as `SaltVisitor.visit` does on the runtime
type of the property. -/
def saltVisitProp (mm : ModelManager) (rng : Nat → Bytes)
    (recurse : ClassDecl → Value → Nat → Except Err (Value × Nat))
    (q : PropDecl) (value : Value) (ctr : Nat) :
    Except Err (Option Bytes × Value × Nat) :=
  match q.kind with
  | .relationship =>
    match value with
    | .vrel => .error .notImplementedRelationships
    | _ => .error .expectedRelationship
  | .array => .error .notImplementedArrays
  | .primitive => .ok (some (rng ctr), value, ctr + 1)
  | .enumeration => .error .notImplementedEnums
  | .nestedClass _ =>
    match value with
    | .vres vfqn vf vs =>
      match alistLookup vfqn mm with
      | some cd => do
        let (v', ctr') ← recurse cd (.vres vfqn vf vs) ctr
        .ok (none, v', ctr')
      | none => .error (.typeNotFound vfqn)
    | .vundefined => .error (.typeError ("Cannot read properties of undefined"))
    | _ => .error (.typeError ("value.getFullyQualifiedType is not a function"))

/-- `SaltVisitor.visitClassDeclaration`: requires a `Resource`, then runs
the property loop.  Returns the mutated record and the advanced draw
counter. -/
def saltVisitClass (mm : ModelManager) (rng : Nat → Bytes) :
    Nat → ClassDecl → Value → Nat → Except Err (Value × Nat)
  | 0, _, _, _ => .error .stackOverflow
  | fuel + 1, cd, typed, ctr =>
    match typed with
    | .vres fqn fields salts => do
      let (fields', salts', ctr') ←
        saltVisitProps
          (saltVisitProp mm rng (fun cd' v' c' => saltVisitClass mm rng fuel cd' v' c'))
          cd.props fields salts ctr
      .ok (.vres fqn fields' salts', ctr')
    | _ => .error .expectedResource

/-! ## The root visitor (lib/merkle/rootvisitor.js)

Identical walk; a primitive field hashes
`SHA256(JSON.stringify(value) as utf8 bytes || salt)`, a class node hashes
the concatenation of its children's digests. -/

/-- The property loop of `RootVisitor.visitClassDeclaration`: read value
and salt, visit, collect the digest. -/
def rootVisitProps
    (visitProp : PropDecl → Value → Option Bytes → Except Err (Bytes × Value)) :
    List PropDecl → List (String × Value) → List (String × Bytes) →
    Except Err (List Bytes × List (String × Value))
  | [], fields, _ => .ok ([], fields)
  | q :: rest, fields, salts => do
    let value := getField q.name fields
    let saltOpt := alistLookup q.name salts
    let (d, v') ← visitProp q value saltOpt
    let fields' := writeBack q.name v' fields
    let (ds, fields'') ← rootVisitProps visitProp rest fields' salts
    .ok (d :: ds, fields'')

/-- `RootVisitor.visitField` / `visitRelationshipDeclaration`.  The
primitive branch performs `hash.update(JSON.stringify(value), 'utf8')`
then `hash.update(salt)`; an `undefined` serialised value or salt makes
`hash.update` throw a `TypeError`. -/
def rootVisitProp (sha : Bytes → Bytes) (mm : ModelManager)
    (recurse : ClassDecl → Value → Except Err (Bytes × Value))
    (q : PropDecl) (value : Value) (saltOpt : Option Bytes) :
    Except Err (Bytes × Value) :=
  match q.kind with
  | .relationship =>
    match value with
    | .vrel => .error .notImplementedRelationships
    | _ => .error .expectedRelationship
  | .array => .error .notImplementedArrays
  | .primitive =>
    match jsonStringify value with
    | none => .error (.typeError ("The data argument must not be undefined"))
    | some sv =>
      match saltOpt with
      | none => .error (.typeError ("The data argument must not be undefined"))
      | some s => .ok (sha (utf8 sv ++ s), value)
  | .enumeration => .error .notImplementedEnums
  | .nestedClass _ =>
    match value with
    | .vres vfqn vf vs =>
      match alistLookup vfqn mm with
      | some cd => recurse cd (.vres vfqn vf vs)
      | none => .error (.typeNotFound vfqn)
    | .vundefined => .error (.typeError ("Cannot read properties of undefined"))
    | _ => .error (.typeError ("value.getFullyQualifiedType is not a function"))

/-- `RootVisitor.visitClassDeclaration`: collect the child digests in
declaration order and hash their concatenation. -/
def rootVisitClass (sha : Bytes → Bytes) (mm : ModelManager) :
    Nat → ClassDecl → Value → Except Err (Bytes × Value)
  | 0, _, _ => .error .stackOverflow
  | fuel + 1, cd, typed =>
    match typed with
    | .vres fqn fields salts => do
      let (ds, fields') ←
        rootVisitProps
          (rootVisitProp sha mm (fun cd' v' => rootVisitClass sha mm fuel cd' v'))
          cd.props fields salts
      .ok (sha ds.flatten, .vres fqn fields' salts)
    | _ => .error .expectedResource

/-! ## The proof visitor (lib/merkle/proofvisitor.js)

The walk additionally tracks the current path; a primitive field whose
current path equals the requested path returns the sentinel disclosure
object `{$value: true, value, salt}` instead of a digest; a nested class
returns the raw list its `visitClassDeclaration` built.  (The `root` flag
in the parameters is set to `false` on the first class node and never read
again, so it is not modelled.) -/

/-- The raw entries of `ProofVisitor`'s per-class result list: a `Buffer`
digest, the sentinel disclosure, or the nested list of a nested class. -/
inductive ProofNode where
  | digest (d : Bytes)
  | sentinel (value : Value) (salt : Option Bytes)
  | level (nodes : List ProofNode)

/-- The property loop of `ProofVisitor.visitClassDeclaration`: push the
name on the current path, read value and salt, visit, pop. -/
def proofVisitProps
    (visitProp :
      PropDecl → List String → Value → Option Bytes → Except Err (ProofNode × Value)) :
    List PropDecl → List String → List (String × Value) → List (String × Bytes) →
    Except Err (List ProofNode × List (String × Value))
  | [], _, fields, _ => .ok ([], fields)
  | q :: rest, currentPath, fields, salts => do
    let value := getField q.name fields
    let saltOpt := alistLookup q.name salts
    let (node, v') ← visitProp q (currentPath ++ [q.name]) value saltOpt
    let fields' := writeBack q.name v' fields
    let (nodes, fields'') ← proofVisitProps visitProp rest currentPath fields' salts
    .ok (node :: nodes, fields'')

/-- `ProofVisitor.visitField` / `visitRelationshipDeclaration`. -/
def proofVisitProp (sha : Bytes → Bytes) (mm : ModelManager) (path : List String)
    (recurse : ClassDecl → List String → Value → Except Err (List ProofNode × Value))
    (q : PropDecl) (currentPath : List String) (value : Value) (saltOpt : Option Bytes) :
    Except Err (ProofNode × Value) :=
  match q.kind with
  | .relationship =>
    match value with
    | .vrel => .error .notImplementedRelationships
    | _ => .error .expectedRelationship
  | .array => .error .notImplementedArrays
  | .primitive =>
    if pathEquals path currentPath then .ok (.sentinel value saltOpt, value)
    else
      match jsonStringify value with
      | none => .error (.typeError ("The data argument must not be undefined"))
      | some sv =>
        match saltOpt with
        | none => .error (.typeError ("The data argument must not be undefined"))
        | some s => .ok (.digest (sha (utf8 sv ++ s)), value)
  | .enumeration => .error .notImplementedEnums
  | .nestedClass _ =>
    match value with
    | .vres vfqn vf vs =>
      match alistLookup vfqn mm with
      | some cd => do
        let (nodes, v') ← recurse cd currentPath (.vres vfqn vf vs)
        .ok (.level nodes, v')
      | none => .error (.typeNotFound vfqn)
    | .vundefined => .error (.typeError ("Cannot read properties of undefined"))
    | _ => .error (.typeError ("value.getFullyQualifiedType is not a function"))

/-- `ProofVisitor.visitClassDeclaration`. -/
def proofVisitClass (sha : Bytes → Bytes) (mm : ModelManager) (path : List String) :
    Nat → ClassDecl → List String → Value → Except Err (List ProofNode × Value)
  | 0, _, _, _ => .error .stackOverflow
  | fuel + 1, cd, currentPath, typed =>
    match typed with
    | .vres fqn fields salts => do
      let (nodes, fields') ←
        proofVisitProps
          (proofVisitProp sha mm path
            (fun cd' cp' v' => proofVisitClass sha mm path fuel cd' cp' v'))
          cd.props currentPath fields salts
      .ok (nodes, .vres fqn fields' salts)
    | _ => .error .expectedResource

/-! ## Proof flattening (lib/merkle/utils.js `splitProof` and the loop in
`Merkle.proof`) -/

/-- The public proof object: `hashes` is leaf-first, one
`(before, after)` pair of hex digest lists per level; `value` is the
disclosed leaf value and `salt` its hex-encoded salt. -/
structure Proof where
  hashes : List (List String × List String)
  value : Value
  salt : String

/-- The tail of `splitProof`'s loop once a non-`Buffer` entry has been
seen: later digests go to `after`, a later non-`Buffer` entry replaces the
child. -/
def splitSeen : List ProofNode → ProofNode → ProofNode × List Bytes
  | [], c => (c, [])
  | .digest d :: rest, c =>
    let (c', a) := splitSeen rest c
    (c', d :: a)
  | e :: rest, _ => splitSeen rest e

/-- utils.js `splitProof`: digests before the first non-`Buffer` entry are
`before`, the last non-`Buffer` entry is the child, every other digest is
`after`. -/
def splitProof : List ProofNode → List Bytes × Option ProofNode × List Bytes
  | [] => ([], none, [])
  | .digest d :: rest =>
    let (b, c, a) := splitProof rest
    (d :: b, c, a)
  | e :: rest =>
    let (c, a) := splitSeen rest e
    ([], some c, a)

/-- The `while (p)` loop at the end of `Merkle.proof`: split each level,
prepend the hex-encoded `(before, after)` entry, and descend into the
child.  A `null` child (`child.$value`) and an `undefined` sentinel salt
(`child.salt.toString('hex')`) throw `TypeError`s.  A digest child cannot
occur (`splitProof` never selects a `Buffer` as the child); the branch is
present only to make the match total. -/
def flattenLoop : Nat → List ProofNode → Except Err Proof
  | 0, _ => .error .stackOverflow
  | fuel + 1, p =>
    let (before, child, after) := splitProof p
    let entry := (before.map toHex, after.map toHex)
    match child with
    | none => .error (.typeError ("Cannot read properties of null"))
    | some (.sentinel v saltOpt) =>
      match saltOpt with
      | some s => .ok ⟨[entry], v, toHex s⟩
      | none => .error (.typeError ("Cannot read properties of undefined"))
    | some (.level ns) => do
      let pf ← flattenLoop fuel ns
      .ok ⟨pf.hashes ++ [entry], pf.value, pf.salt⟩
    | some (.digest _) => .error .unrecognised

/-! ## The verify visitor (lib/merkle/verifyvisitor.js)

The walk runs on the schema alone (no record): the disclosed `value` and
`salt` and the parsed `hashes` travel in the parameters; a matched
primitive recomputes the leaf digest, and the class node that receives a
non-null child result shifts the next `(before, after)` pair and hashes
`before || child || after`.  (Its `root` flag is likewise dead.) -/

/-- Parsed `(before, after)` digest pairs, leaf-first. -/
abbrev HashPairs := List (List Bytes × List Bytes)

/-- The property loop of `VerifyVisitor.visitClassDeclaration`: on the
first non-null child result, shift the next hashes entry — destructuring
the `undefined` shifted from an exhausted list throws — hash
`before || child || after` and return immediately. -/
def verifyVisitProps (sha : Bytes → Bytes)
    (visitProp : PropDecl → List String → HashPairs → Except Err (Option Bytes × HashPairs)) :
    List PropDecl → List String → HashPairs → Except Err (Option Bytes × HashPairs)
  | [], _, hashes => .ok (none, hashes)
  | q :: rest, currentPath, hashes => do
    let (result, hashes') ← visitProp q (currentPath ++ [q.name]) hashes
    match result with
    | some d =>
      match hashes' with
      | [] => .error (.typeError ("undefined is not iterable"))
      | (before, after) :: restH =>
        .ok (some (sha (before.flatten ++ d ++ after.flatten)), restH)
    | none => verifyVisitProps sha visitProp rest currentPath hashes'

/-- `VerifyVisitor.visitField` / `visitRelationshipDeclaration`.  The
nested branch resolves the field's declared type
(`field.getFullyQualifiedTypeName()`), unlike the other visitors which
resolve the runtime value's type. -/
def verifyVisitProp (sha : Bytes → Bytes) (mm : ModelManager) (path : List String)
    (value : Value) (salt : Bytes)
    (recurse : ClassDecl → List String → HashPairs → Except Err (Option Bytes × HashPairs))
    (q : PropDecl) (currentPath : List String) (hashes : HashPairs) :
    Except Err (Option Bytes × HashPairs) :=
  match q.kind with
  | .relationship => .error .notImplementedRelationships
  | .array => .error .notImplementedArrays
  | .primitive =>
    if pathEquals path currentPath then
      match jsonStringify value with
      | none => .error (.typeError ("The data argument must not be undefined"))
      | some sv => .ok (some (sha (utf8 sv ++ salt)), hashes)
    else .ok (none, hashes)
  | .enumeration => .error .notImplementedEnums
  | .nestedClass dfqn =>
    match alistLookup dfqn mm with
    | some cd => recurse cd currentPath hashes
    | none => .error (.typeNotFound dfqn)

/-- `VerifyVisitor.visitClassDeclaration`. -/
def verifyVisitClass (sha : Bytes → Bytes) (mm : ModelManager) (path : List String)
    (value : Value) (salt : Bytes) :
    Nat → ClassDecl → List String → HashPairs → Except Err (Option Bytes × HashPairs)
  | 0, _, _, _ => .error .stackOverflow
  | fuel + 1, cd, currentPath, hashes =>
    verifyVisitProps sha
      (verifyVisitProp sha mm path value salt
        (fun cd' cp' h' => verifyVisitClass sha mm path value salt fuel cd' cp' h'))
      cd.props currentPath hashes

/-! ## The `Merkle` facade (lib/merkle.js) -/

/-- `this.modelManager.getType(typed.getFullyQualifiedType())`: the method
call on a non-object throws, an unknown type name makes `getType` throw. -/
def getTypeOf (mm : ModelManager) (typed : Value) : Except Err ClassDecl :=
  match typed with
  | .vres fqn _ _ =>
    match alistLookup fqn mm with
    | some cd => .ok cd
    | none => .error (.typeNotFound fqn)
  | .vundefined => .error (.typeError ("Cannot read properties of undefined"))
  | _ => .error (.typeError ("typed.getFullyQualifiedType is not a function"))

/-- `Merkle.salt(typed)`: populate the salt stores in place; the returned
value is the mutated record (the draw counter starts at 0). -/
def Merkle.salt (mm : ModelManager) (rng : Nat → Bytes) (fuel : Nat) (typed : Value) :
    Except Err Value := do
  let cd ← getTypeOf mm typed
  let (r', _) ← saltVisitClass mm rng fuel cd typed 0
  .ok r'

/-- `Merkle.root(typed)`: the hex-encoded Merkle root. -/
def Merkle.root (sha : Bytes → Bytes) (mm : ModelManager) (fuel : Nat) (typed : Value) :
    Except Err String := do
  let cd ← getTypeOf mm typed
  let (d, _) ← rootVisitClass sha mm fuel cd typed
  .ok (toHex d)

/-- `Merkle.proof(typed, path)`: run the proof visitor from the empty
current path, then flatten the raw structure. -/
def Merkle.proof (sha : Bytes → Bytes) (mm : ModelManager) (fuel : Nat) (typed : Value)
    (path : List String) : Except Err Proof := do
  let cd ← getTypeOf mm typed
  let (nodes, _) ← proofVisitClass sha mm path fuel cd [] typed
  flattenLoop fuel nodes

/-- The hex-parsing of the proof's `hashes` in `Merkle.verify`. -/
def parseHashes (hs : List (List String × List String)) : HashPairs :=
  hs.map fun ba => (ba.1.map fromHex, ba.2.map fromHex)

/-- `Merkle.verify(ns, type, path, root, proof)`: look the class up by
`ns + '.' + type`, parse the proof's hex fields, run the verify visitor
and compare the hex of the recomputed root (`null.toString` throws when no
property matched the path). -/
def Merkle.verify (sha : Bytes → Bytes) (mm : ModelManager) (fuel : Nat) (ns ty : String)
    (path : List String) (rootHex : String) (pf : Proof) : Except Err Bool :=
  match alistLookup (ns ++ "." ++ ty) mm with
  | none => .error (.typeNotFound (ns ++ "." ++ ty))
  | some cd => do
    let (resOpt, _) ←
      verifyVisitClass sha mm path pf.value (fromHex pf.salt) fuel cd [] (parseHashes pf.hashes)
    match resOpt with
    | none => .error (.typeError ("Cannot read properties of null"))
    | some d => .ok (toHex d = rootHex)

/-! ## Concrete fixtures used by the claims' scenarios -/

/-- A concrete stand-in for the external SHA-256 primitive, used to
instantiate the abstract `sha` parameter in closed statements: 32 bytes,
each below 256.  (No claim requires collision resistance.) -/
def shaModel (bs : Bytes) : Bytes :=
  List.replicate 31 0 ++ [(bs.foldl (fun a b => 2 * a + b) 1) % 256]

/-- A concrete randomness supply: every draw is 32 zero bytes. -/
def rngZero (_ : Nat) : Bytes := List.replicate 32 0

/-- 32 zero bytes. -/
def zeros32 : Bytes := List.replicate 32 0

/-- 32 bytes of value 1. -/
def ones32 : Bytes := List.replicate 32 1

/-- Scenario S1: `org.test.Thing { String name }`. -/
def mmThing : ModelManager := [("org.test.Thing", ⟨[⟨"name", .primitive⟩]⟩)]

/-- S1 record `{name: "alice"}` with a 32-zero-byte salt. -/
def recAlice : Value :=
  .vres ("org.test.Thing") [("name", .vstr ("alice"))] [("name", zeros32)]

/-- S1 record with no salt generated. -/
def recAliceNoSalt : Value :=
  .vres ("org.test.Thing") [("name", .vstr ("alice"))] []

/-- Scenario S2: `org.test.Pair { String a, String b }`. -/
def mmPair : ModelManager :=
  [("org.test.Pair", ⟨[⟨"a", .primitive⟩, ⟨"b", .primitive⟩]⟩)]

/-- S2 record `{a: "x", b: "y"}` with salts of zeros and ones. -/
def recPair : Value :=
  .vres ("org.test.Pair") [("a", .vstr ("x")), ("b", .vstr ("y"))]
    [("a", zeros32), ("b", ones32)]

/-- A schema with a nested-class sibling after a primitive:
`org.test.Outer { String a, Inner inner }`, `org.test.Inner { String k }`. -/
def mmOuter : ModelManager :=
  [("org.test.Outer", ⟨[⟨"a", .primitive⟩, ⟨"inner", .nestedClass ("org.test.Inner")⟩]⟩),
   ("org.test.Inner", ⟨[⟨"k", .primitive⟩]⟩)]

/-- Unsalted record `{a: "x", inner: {k: "v"}}` of class `org.test.Outer`. -/
def recOuterBare : Value :=
  .vres ("org.test.Outer")
    [("a", .vstr ("x")),
     ("inner", .vres ("org.test.Inner") [("k", .vstr ("v"))] [])]
    []

/-- `recOuterBare` after the salt engine ran with the `rngZero` supply. -/
def recOuterSalted : Value :=
  .vres ("org.test.Outer")
    [("a", .vstr ("x")),
     ("inner", .vres ("org.test.Inner") [("k", .vstr ("v"))] [("k", zeros32)])]
    [("a", zeros32)]

/-- Scenario S6: `org.test.Tagged { String[] tags }`. -/
def mmTagged : ModelManager := [("org.test.Tagged", ⟨[⟨"tags", .array⟩]⟩)]

/-- A record of class `org.test.Tagged`. -/
def recTagged : Value := .vres ("org.test.Tagged") [("tags", .vundefined)] []

/-! ## Side-condition predicates

These executable predicates formalise the hypotheses the claims speak
about ("well-typed record", "salts populated", "path addressing a
primitive leaf").  They are stated over the schema walk the engines
perform, not over any engine's own code. -/

/-- Is a value a primitive scalar? -/
def isPrimValue : Value → Bool
  | .vstr _ => true
  | .vbool _ => true
  | .vint _ => true
  | _ => false

/-- Are the names in a list pairwise distinct? -/
def namesNodup : List String → Bool
  | [] => true
  | n :: rest => rest.all (fun m => !(decide (m = n))) && namesNodup rest

/-- Is a property classifier the primitive one? -/
def isPrimitiveKind : PropKind → Bool
  | .primitive => true
  | _ => false

/-- The record is well-typed for the class declaration: property names are
distinct, every primitive property holds a primitive scalar, every
nested-class property holds a resource of exactly the declared type whose
class resolves and is in turn well-typed, and no array, enum or
relationship property occurs. -/
def typedOk (mm : ModelManager) : Nat → ClassDecl → Value → Bool
  | 0, _, _ => false
  | fuel + 1, cd, .vres _ fields _ =>
    namesNodup (cd.props.map (·.name)) &&
    cd.props.all fun q =>
      match q.kind, getField q.name fields with
      | .primitive, v => isPrimValue v
      | .nestedClass dfqn, .vres vfqn vf vs =>
        decide (vfqn = dfqn) &&
        (match alistLookup dfqn mm with
         | some cd' => typedOk mm fuel cd' (.vres vfqn vf vs)
         | none => false)
      | _, _ => false
  | _ + 1, _, _ => false

/-- Every primitive leaf reachable through the schema walk has a salt
entry in the store of the record that owns it. -/
def allSalted (mm : ModelManager) : Nat → ClassDecl → Value → Bool
  | 0, _, _ => false
  | fuel + 1, cd, .vres _ fields salts =>
    cd.props.all fun q =>
      match q.kind with
      | .primitive => (alistLookup q.name salts).isSome
      | .nestedClass _ =>
        (match getField q.name fields with
         | .vres vfqn vf vs =>
           (match alistLookup vfqn mm with
            | some cd' => allSalted mm fuel cd' (.vres vfqn vf vs)
            | none => false)
         | _ => false)
      | _ => false
  | _ + 1, _, _ => false

/-- Every primitive leaf has a salt whose entries are byte values
(below 256), so that its hex encoding parses back to the same bytes. -/
def saltsBytesOk (mm : ModelManager) : Nat → ClassDecl → Value → Bool
  | 0, _, _ => false
  | fuel + 1, cd, .vres _ fields salts =>
    cd.props.all fun q =>
      match q.kind with
      | .primitive =>
        (match alistLookup q.name salts with
         | some s => s.all (· < 256)
         | none => false)
      | .nestedClass _ =>
        (match getField q.name fields with
         | .vres vfqn vf vs =>
           (match alistLookup vfqn mm with
            | some cd' => saltsBytesOk mm fuel cd' (.vres vfqn vf vs)
            | none => false)
         | _ => false)
      | _ => false
  | _ + 1, _, _ => false

/-- A record fit for the round trip: well-typed and fully salted with
byte-valued salts. -/
def recordOk (mm : ModelManager) (fuel : Nat) (cd : ClassDecl) (r : Value) : Bool :=
  typedOk mm fuel cd r && saltsBytesOk mm fuel cd r

/-- The path addresses a primitive leaf reachable through nested-class
fields, and every sibling property at every class node along the path is
primitive. -/
def pathOk (mm : ModelManager) : Nat → ClassDecl → List String → Bool
  | 0, _, _ => false
  | _ + 1, _, [] => false
  | fuel + 1, cd, n :: p =>
    cd.props.any (fun q => q.name = n) &&
    cd.props.all fun q =>
      if q.name = n then
        match p, q.kind with
        | [], .primitive => true
        | _ :: _, .nestedClass dfqn =>
          (match alistLookup dfqn mm with
           | some cd' => pathOk mm fuel cd' p
           | none => false)
        | _, _ => false
      else isPrimitiveKind q.kind

/-- The requested path resolves to a primitive leaf of the schema walk
started at current path `cp`: some primitive property reachable through
nested-class fields has a current path equal (under `pathEquals`) to the
requested path.  This is exactly the condition under which the proof
visitor marks a value node instead of a digest. -/
def pathResolves (mm : ModelManager) (path : List String) :
    Nat → ClassDecl → List String → Bool
  | 0, _, _ => false
  | fuel + 1, cd, cp =>
    cd.props.any fun q =>
      match q.kind with
      | .primitive => pathEquals path (cp ++ [q.name])
      | .nestedClass dfqn =>
        (match alistLookup dfqn mm with
         | some cd' => pathResolves mm path fuel cd' (cp ++ [q.name])
         | none => false)
      | _ => false

/-- Every primitive leaf reachable through the schema walk has a salt of
exactly 32 bytes in the store of the record that owns it. -/
def allSaltedLen32 (mm : ModelManager) : Nat → ClassDecl → Value → Bool
  | 0, _, _ => false
  | fuel + 1, cd, .vres _ fields salts =>
    cd.props.all fun q =>
      match q.kind with
      | .primitive =>
        (match alistLookup q.name salts with
         | some s => decide (s.length = 32)
         | none => false)
      | .nestedClass _ =>
        (match getField q.name fields with
         | .vres vfqn vf vs =>
           (match alistLookup vfqn mm with
            | some cd' => allSaltedLen32 mm fuel cd' (.vres vfqn vf vs)
            | none => false)
         | _ => false)
      | _ => false
  | _ + 1, _, _ => false

/-- The names of a class's own primitive properties. -/
def primNames (cd : ClassDecl) : List String :=
  (cd.props.filter fun q => isPrimitiveKind q.kind).map (·.name)

/-- Two salt stores agree on every key outside `names`. -/
def saltsAgreeOff (names : List String) (s1 s2 : List (String × Bytes)) : Bool :=
  (s1.all fun kv => names.contains kv.1 || decide (alistLookup kv.1 s2 = alistLookup kv.1 s1)) &&
  (s2.all fun kv => names.contains kv.1 || decide (alistLookup kv.1 s1 = alistLookup kv.1 s2))

/-- The salt store of a resource (`[]` for non-resources). -/
def vresSalts : Value → List (String × Bytes)
  | .vres _ _ s => s
  | _ => []

/-- Is a character one of `0-9a-f`? -/
def isLowerHexChar (c : Char) : Bool :=
  (decide (48 ≤ c.toNat) && decide (c.toNat ≤ 57)) ||
  (decide (97 ≤ c.toNat) && decide (c.toNat ≤ 102))

/-- The end-to-end round trip as one boolean: produce a proof and a root
and verify the proof against the root; `false` when any stage errors or
the verification rejects. -/
def roundTripCheck (sha : Bytes → Bytes) (mm : ModelManager) (fuel : Nat) (ns ty : String)
    (r : Value) (path : List String) : Bool :=
  match Merkle.proof sha mm fuel r path with
  | .ok pf =>
    match Merkle.root sha mm fuel r with
    | .ok rt =>
      match Merkle.verify sha mm fuel ns ty path rt pf with
      | .ok b => b
      | .error _ => false
    | .error _ => false
  | .error _ => false

/-- The per-property body of `allSaltedLen32` at successor fuel, split out
so that the salt-engine proofs can reason about one property at a time. -/
def saltCheckProp (mm : ModelManager) (f : Nat) (q : PropDecl)
    (fields : List (String × Value)) (salts : List (String × Bytes)) : Bool :=
  match q.kind with
  | .primitive =>
    (match alistLookup q.name salts with
     | some s => decide (s.length = 32)
     | none => false)
  | .nestedClass _ =>
    (match getField q.name fields with
     | .vres vfqn vf vs =>
       (match alistLookup vfqn mm with
        | some cd' => allSaltedLen32 mm f cd' (.vres vfqn vf vs)
        | none => false)
     | _ => false)
  | _ => false

/-! ## Basic lemmas about the association-list, path and hex helpers -/

theorem alistLookup_alistSet_self {α : Type} (k : String) (v : α) (l : List (String × α)) :
    alistLookup k (alistSet k v l) = some v := by
  induction l with
  | nil => simp [alistLookup, alistSet]
  | cons kv rest ih =>
    by_cases h : kv.1 = k
    · simp [alistSet, alistLookup, h]
    · simpa [alistSet, alistLookup, h] using ih

theorem alistLookup_alistSet_ne {α : Type} (k k' : String) (v : α) (l : List (String × α))
    (h : k ≠ k') : alistLookup k' (alistSet k v l) = alistLookup k' l := by
  induction l with
  | nil => simp [alistLookup, alistSet, h]
  | cons kv rest ih =>
    by_cases hk : kv.1 = k
    · simp [alistSet, alistLookup, hk, h]
    · by_cases hk' : kv.1 = k'
      · simp [alistSet, alistLookup, hk, hk', Ne.symm h]
      · simp [alistSet, alistLookup, hk, hk', ih]

theorem alistSet_of_lookup_eq {α : Type} (k : String) (v : α) (l : List (String × α))
    (h : alistLookup k l = some v) : alistSet k v l = l := by
  induction l with
  | nil => simp [alistLookup] at h
  | cons kv rest ih =>
    by_cases hk : kv.1 = k
    · obtain ⟨k1, v1⟩ := kv
      simp_all [alistLookup, alistSet]
    · simp only [alistLookup, hk, if_false] at h
      simp [alistSet, hk, ih h]

theorem writeBack_getField (n : String) (fields : List (String × Value)) :
    writeBack n (getField n fields) fields = fields := by
  unfold writeBack getField
  cases h : alistLookup n fields with
  | none => rfl
  | some v => simp [alistSet_of_lookup_eq n v fields h]

theorem pathEquals_self (p : List String) : pathEquals p p = true := by
  induction p with
  | nil => rfl
  | cons a r ih =>
    have hall : ((r.zip r).all fun x => decide (x.1 = x.2)) = true := by
      rw [pathEquals, if_neg (show ¬ r.length ≠ r.length by simp)] at ih
      exact ih
    rw [pathEquals, if_neg (show ¬ (a :: r).length ≠ (a :: r).length by simp)]
    simpa using hall

theorem pathEquals_eq_true_iff (p q : List String) : pathEquals p q = true ↔ p = q := by
  constructor
  · intro h
    induction p generalizing q with
    | nil =>
      cases q with
      | nil => rfl
      | cons b s => rw [pathEquals, if_pos (by simp)] at h; exact absurd h (by simp)
    | cons a r ih =>
      cases q with
      | nil => rw [pathEquals, if_pos (by simp)] at h; exact absurd h (by simp)
      | cons b s =>
        by_cases hl : r.length = s.length
        · rw [pathEquals, if_neg (show ¬ (a :: r).length ≠ (b :: s).length by simp [hl])] at h
          simp only [List.zip_cons_cons, List.all_cons, Bool.and_eq_true,
            decide_eq_true_eq] at h
          obtain ⟨hab, hall⟩ := h
          have hrs : pathEquals r s = true := by
            rw [pathEquals, if_neg (show ¬ r.length ≠ s.length by simp [hl])]
            exact hall
          rw [hab, ih s hrs]
        · rw [pathEquals, if_pos (show (a :: r).length ≠ (b :: s).length by simp [hl])] at h
          exact absurd h (by simp)
  · intro h
    rw [h]
    exact pathEquals_self q

theorem pathEquals_of_ne (p q : List String) (h : p ≠ q) : pathEquals p q = false := by
  cases hb : pathEquals p q with
  | false => rfl
  | true => exact absurd ((pathEquals_eq_true_iff p q).mp hb) h

theorem pathEquals_nil_append_singleton (cp : List String) (n : String) :
    pathEquals [] (cp ++ [n]) = false := by
  apply pathEquals_of_ne
  intro h
  exact absurd h.symm (by simp)

theorem hexVal_hexDigitChar : ∀ x < 16, hexVal (hexDigitChar x) = some x := by decide

theorem isLowerHexChar_hexDigitChar : ∀ x < 16, isLowerHexChar (hexDigitChar x) = true := by
  decide

theorem fromHexChars_hexByte_cons (b : Nat) (h : b < 256) (rest : List Char) :
    fromHexChars (hexByte b ++ rest) = b :: fromHexChars rest := by
  have h1 : b / 16 < 16 := by omega
  have h2 : b % 16 < 16 := Nat.mod_lt _ (by norm_num)
  have e1 := hexVal_hexDigitChar _ h1
  have e2 := hexVal_hexDigitChar _ h2
  simp only [hexByte, List.cons_append, List.nil_append, fromHexChars, e1, e2]
  congr 1
  omega

theorem data_toHex (bs : Bytes) : (toHex bs).data = (bs.map hexByte).flatten := rfl

theorem fromHex_toHex (bs : Bytes) (h : ∀ b ∈ bs, b < 256) : fromHex (toHex bs) = bs := by
  induction bs with
  | nil => rfl
  | cons b rest ih =>
    have hb : b < 256 := h b (by simp)
    have hrest : ∀ x ∈ rest, x < 256 := fun x hx => h x (by simp [hx])
    show fromHexChars (toHex (b :: rest)).data = b :: rest
    rw [data_toHex]
    simp only [List.map_cons, List.flatten_cons]
    rw [fromHexChars_hexByte_cons b hb]
    have := ih hrest
    rw [show ((rest.map hexByte).flatten : List Char) = (toHex rest).data from rfl]
    exact congrArg (b :: ·) this

theorem fromHex_toHex_map (l : List Bytes) (h : ∀ bs ∈ l, ∀ b ∈ bs, b < 256) :
    (l.map toHex).map fromHex = l := by
  induction l with
  | nil => rfl
  | cons x rest ih =>
    simp only [List.map_cons, List.map_map]
    rw [fromHex_toHex x (h x (by simp))]
    have := ih fun bs hbs => h bs (by simp [hbs])
    simpa using this

theorem toHex_length (bs : Bytes) : (toHex bs).length = 2 * bs.length := by
  have key : ∀ l : List Nat, ((l.map hexByte).flatten : List Char).length = 2 * l.length := by
    intro l
    induction l with
    | nil => rfl
    | cons b rest ih =>
      simp only [List.map_cons, List.flatten_cons, List.length_append, ih, hexByte,
        List.length_cons, List.length_nil]
      omega
  show (toHex bs).data.length = 2 * bs.length
  rw [data_toHex]
  exact key bs

theorem mem_toHex_isLowerHexChar (bs : Bytes) (h : ∀ b ∈ bs, b < 256) :
    ∀ c ∈ (toHex bs).data, isLowerHexChar c = true := by
  induction bs with
  | nil => intro c hc; simp [data_toHex] at hc
  | cons b rest ih =>
    intro c hc
    rw [data_toHex] at hc
    simp only [List.map_cons, List.flatten_cons, List.mem_append] at hc
    rcases hc with hc | hc
    · have hb : b < 256 := h b (by simp)
      simp only [hexByte, List.mem_cons, List.not_mem_nil, or_false] at hc
      rcases hc with hc | hc
      · exact hc ▸ isLowerHexChar_hexDigitChar _ (by omega)
      · exact hc ▸ isLowerHexChar_hexDigitChar _ (Nat.mod_lt _ (by norm_num))
    · exact ih (fun x hx => h x (by simp [hx])) c (by rw [data_toHex]; exact hc)

/-! ## The root and proof visitors never modify the record

The threaded record state of `rootVisitClass` and `proofVisitClass` comes
back unchanged: neither visitor contains a write. -/

theorem rootVisitProp_preserves (sha : Bytes → Bytes) (mm : ModelManager)
    (recurse : ClassDecl → Value → Except Err (Bytes × Value))
    (hrec : ∀ cd v d v', recurse cd v = .ok (d, v') → v' = v) :
    ∀ q v s d v', rootVisitProp sha mm recurse q v s = .ok (d, v') → v' = v := by
  intro q v s d v' h
  cases hk : q.kind with
  | relationship => cases v <;> simp_all [rootVisitProp]
  | array => simp_all [rootVisitProp]
  | primitive =>
    simp only [rootVisitProp, hk] at h
    cases hj : jsonStringify v with
    | none => simp [hj] at h
    | some sv =>
      cases s with
      | none => simp [hj] at h
      | some sb =>
        simp [hj] at h
        exact h.2.symm
  | enumeration => simp_all [rootVisitProp]
  | nestedClass dfqn =>
    simp only [rootVisitProp, hk] at h
    cases v with
    | vres vfqn vf vs =>
      cases hl : alistLookup vfqn mm with
      | none => simp [hl] at h
      | some cd' =>
        simp only [hl] at h
        exact hrec cd' (.vres vfqn vf vs) d v' h
    | vstr s' => simp at h
    | vbool b' => simp at h
    | vint n' => simp at h
    | vrel => simp at h
    | vundefined => simp at h

theorem rootVisitProps_preserves
    (visitProp : PropDecl → Value → Option Bytes → Except Err (Bytes × Value))
    (hvp : ∀ q v s d v', visitProp q v s = .ok (d, v') → v' = v) :
    ∀ props fields salts out,
      rootVisitProps visitProp props fields salts = .ok out → out.2 = fields := by
  intro props
  induction props with
  | nil =>
    intro fields salts out h
    simp only [rootVisitProps, Except.ok.injEq] at h
    rw [← h]
  | cons q rest ih =>
    intro fields salts out h
    simp only [rootVisitProps, bind, Except.bind] at h
    split at h
    · exact absurd h (by simp)
    · next dv heq =>
      have hveq : dv.2 = getField q.name fields := hvp _ _ _ _ _ (by rw [heq])
      rw [hveq, writeBack_getField] at h
      split at h
      · exact absurd h (by simp)
      · next dsf heq2 =>
        simp only [Except.ok.injEq] at h
        have := ih fields salts dsf heq2
        rw [← h]
        exact this

theorem rootVisitClass_preserves (sha : Bytes → Bytes) (mm : ModelManager) :
    ∀ fuel cd r out, rootVisitClass sha mm fuel cd r = .ok out → out.2 = r := by
  intro fuel
  induction fuel with
  | zero => intro cd r out h; simp [rootVisitClass] at h
  | succ f ih =>
    intro cd r out h
    cases r with
    | vres fqn fields salts =>
      simp only [rootVisitClass, bind, Except.bind] at h
      cases hp : rootVisitProps
          (rootVisitProp sha mm fun cd' v' => rootVisitClass sha mm f cd' v')
          cd.props fields salts with
      | error e => rw [hp] at h; exact absurd h (by simp)
      | ok dsf =>
        rw [hp] at h
        simp only [Except.ok.injEq] at h
        have hfld : dsf.2 = fields := by
          refine rootVisitProps_preserves _ ?_ cd.props fields salts dsf hp
          intro q v s d v' hq
          exact rootVisitProp_preserves sha mm _
            (fun cd'' v'' d'' v''' hr => ih cd'' v'' (d'', v''') hr) q v s d v' hq
        rw [← h, hfld]
    | vstr s' => simp [rootVisitClass] at h
    | vbool b' => simp [rootVisitClass] at h
    | vint n' => simp [rootVisitClass] at h
    | vrel => simp [rootVisitClass] at h
    | vundefined => simp [rootVisitClass] at h

theorem proofVisitProp_preserves (sha : Bytes → Bytes) (mm : ModelManager)
    (path : List String)
    (recurse : ClassDecl → List String → Value → Except Err (List ProofNode × Value))
    (hrec : ∀ cd cp v nodes v', recurse cd cp v = .ok (nodes, v') → v' = v) :
    ∀ q cp v s node v', proofVisitProp sha mm path recurse q cp v s = .ok (node, v') → v' = v := by
  intro q cp v s node v' h
  cases hk : q.kind with
  | relationship => cases v <;> simp_all [proofVisitProp]
  | array => simp_all [proofVisitProp]
  | primitive =>
    simp only [proofVisitProp, hk] at h
    by_cases hpe : pathEquals path cp = true
    · simp [hpe] at h
      exact h.2.symm
    · rw [Bool.not_eq_true] at hpe
      simp only [hpe, Bool.false_eq_true, if_false] at h
      cases hj : jsonStringify v with
      | none => simp [hj] at h
      | some sv =>
        cases s with
        | none => simp [hj] at h
        | some sb =>
          simp [hj] at h
          exact h.2.symm
  | enumeration => simp_all [proofVisitProp]
  | nestedClass dfqn =>
    simp only [proofVisitProp, hk] at h
    cases v with
    | vres vfqn vf vs =>
      cases hl : alistLookup vfqn mm with
      | none => simp [hl] at h
      | some cd' =>
        simp only [hl, bind, Except.bind] at h
        cases hr : recurse cd' cp (.vres vfqn vf vs) with
        | error e => rw [hr] at h; exact absurd h (by simp)
        | ok nv =>
          rw [hr] at h
          simp only [Except.ok.injEq, Prod.mk.injEq] at h
          have := hrec cd' cp (.vres vfqn vf vs) nv.1 nv.2 (by rw [hr])
          rw [← h.2]
          exact this
    | vstr s' => simp at h
    | vbool b' => simp at h
    | vint n' => simp at h
    | vrel => simp at h
    | vundefined => simp at h

theorem proofVisitProps_preserves
    (visitProp : PropDecl → List String → Value → Option Bytes → Except Err (ProofNode × Value))
    (hvp : ∀ q cp v s node v', visitProp q cp v s = .ok (node, v') → v' = v) :
    ∀ props cp fields salts out,
      proofVisitProps visitProp props cp fields salts = .ok out → out.2 = fields := by
  intro props
  induction props with
  | nil =>
    intro cp fields salts out h
    simp only [proofVisitProps, Except.ok.injEq] at h
    rw [← h]
  | cons q rest ih =>
    intro cp fields salts out h
    simp only [proofVisitProps, bind, Except.bind] at h
    split at h
    · exact absurd h (by simp)
    · next nv heq =>
      have hveq : nv.2 = getField q.name fields := hvp _ _ _ _ nv.1 nv.2 (by rw [heq])
      rw [hveq, writeBack_getField] at h
      split at h
      · exact absurd h (by simp)
      · next nsf heq2 =>
        simp only [Except.ok.injEq] at h
        have := ih cp fields salts nsf heq2
        rw [← h]
        exact this

theorem proofVisitClass_preserves (sha : Bytes → Bytes) (mm : ModelManager)
    (path : List String) :
    ∀ fuel cd cp r out, proofVisitClass sha mm path fuel cd cp r = .ok out → out.2 = r := by
  intro fuel
  induction fuel with
  | zero => intro cd cp r out h; simp [proofVisitClass] at h
  | succ f ih =>
    intro cd cp r out h
    cases r with
    | vres fqn fields salts =>
      simp only [proofVisitClass, bind, Except.bind] at h
      cases hp : proofVisitProps
          (proofVisitProp sha mm path fun cd' cp' v' => proofVisitClass sha mm path f cd' cp' v')
          cd.props cp fields salts with
      | error e => rw [hp] at h; exact absurd h (by simp)
      | ok nsf =>
        rw [hp] at h
        simp only [Except.ok.injEq] at h
        have hfld : nsf.2 = fields := by
          refine proofVisitProps_preserves _ ?_ cd.props cp fields salts nsf hp
          intro q cp' v s node v' hq
          exact proofVisitProp_preserves sha mm path _
            (fun cd'' cp'' v'' nodes'' v''' hr => ih cd'' cp'' v'' (nodes'', v''') hr)
            q cp' v s node v' hq
        rw [← h, hfld]
    | vstr s' => simp [proofVisitClass] at h
    | vbool b' => simp [proofVisitClass] at h
    | vint n' => simp [proofVisitClass] at h
    | vrel => simp [proofVisitClass] at h
    | vundefined => simp [proofVisitClass] at h

/-! ## Totality of the root engine on well-typed records -/

theorem jsonStringify_of_isPrim (v : Value) (h : isPrimValue v = true) :
    ∃ sv, jsonStringify v = some sv := by
  cases v <;> simp_all [isPrimValue, jsonStringify]

theorem rootVisitProps_ok
    (visitProp : PropDecl → Value → Option Bytes → Except Err (Bytes × Value))
    (props : List PropDecl) (fields : List (String × Value)) (salts : List (String × Bytes))
    (h : ∀ q ∈ props, ∃ d,
      visitProp q (getField q.name fields) (alistLookup q.name salts) =
        .ok (d, getField q.name fields)) :
    ∃ ds, rootVisitProps visitProp props fields salts = .ok (ds, fields) := by
  induction props with
  | nil => exact ⟨[], rfl⟩
  | cons q rest ih =>
    obtain ⟨d, hd⟩ := h q (by simp)
    obtain ⟨ds, hds⟩ := ih fun x hx => h x (by simp [hx])
    refine ⟨d :: ds, ?_⟩
    simp only [rootVisitProps, bind, Except.bind, hd, writeBack_getField, hds]

theorem rootVisitProps_first_error
    (visitProp : PropDecl → Value → Option Bytes → Except Err (Bytes × Value))
    (bits : PropDecl → Bool) :
    ∀ (props : List PropDecl) (fields : List (String × Value)) (salts : List (String × Bytes)),
    (∀ q ∈ props, bits q = true → ∃ d,
      visitProp q (getField q.name fields) (alistLookup q.name salts) =
        .ok (d, getField q.name fields)) →
    (∀ q ∈ props, bits q = false → ∃ c,
      visitProp q (getField q.name fields) (alistLookup q.name salts) =
        .error (.typeError c)) →
    props.all bits = false →
    ∃ c, rootVisitProps visitProp props fields salts = .error (.typeError c) := by
  intro props
  induction props with
  | nil => intro fields salts _ _ h3; simp at h3
  | cons q rest ih =>
    intro fields salts h1 h2 h3
    cases hb : bits q with
    | false =>
      obtain ⟨c, hc⟩ := h2 q (by simp) hb
      exact ⟨c, by simp only [rootVisitProps, bind, Except.bind, hc]⟩
    | true =>
      obtain ⟨d, hd⟩ := h1 q (by simp) hb
      have h3' : rest.all bits = false := by
        simp only [List.all_cons, hb, Bool.true_and] at h3
        exact h3
      obtain ⟨c, hc⟩ := ih fields salts (fun x hx => h1 x (by simp [hx]))
        (fun x hx => h2 x (by simp [hx])) h3'
      exact ⟨c, by simp only [rootVisitProps, bind, Except.bind, hd, writeBack_getField, hc]⟩

theorem rootVisitClass_total (sha : Bytes → Bytes) (mm : ModelManager) :
    ∀ fuel cd r, typedOk mm fuel cd r = true →
    ((allSalted mm fuel cd r = true →
        ∃ d, rootVisitClass sha mm fuel cd r = .ok (d, r)) ∧
     (allSalted mm fuel cd r = false →
        ∃ c, rootVisitClass sha mm fuel cd r = .error (.typeError c))) := by
  intro fuel
  induction fuel with
  | zero => intro cd r ht; simp [typedOk] at ht
  | succ f ih =>
    intro cd r ht
    cases r with
    | vres fqn fields salts =>
      simp only [typedOk, Bool.and_eq_true, List.all_eq_true] at ht
      obtain ⟨hnodup, htall⟩ := ht
      -- the per-property facts shared by both parts
      have hok : ∀ q ∈ cd.props,
          (match q.kind with
            | .primitive => (alistLookup q.name salts).isSome
            | .nestedClass _ =>
              (match getField q.name fields with
               | .vres vfqn vf vs =>
                 (match alistLookup vfqn mm with
                  | some cd' => allSalted mm f cd' (.vres vfqn vf vs)
                  | none => false)
               | _ => false)
            | _ => false) = true →
          ∃ d, rootVisitProp sha mm (fun cd' v' => rootVisitClass sha mm f cd' v') q
            (getField q.name fields) (alistLookup q.name salts) =
            .ok (d, getField q.name fields) := by
        intro q hq hbit
        have hty := htall q hq
        cases hk : q.kind with
        | primitive =>
          simp only [hk] at hty hbit
          have hprim : isPrimValue (getField q.name fields) = true := by
            revert hty
            cases getField q.name fields <;> simp [isPrimValue]
          obtain ⟨sv, hsv⟩ := jsonStringify_of_isPrim _ hprim
          obtain ⟨sb, hsb⟩ := Option.isSome_iff_exists.mp hbit
          exact ⟨sha (utf8 sv ++ sb), by simp [rootVisitProp, hk, hsv, hsb]⟩
        | nestedClass dfqn =>
          simp only [hk] at hty hbit
          cases hv : getField q.name fields with
          | vres vfqn vf vs =>
            simp only [hv, Bool.and_eq_true, decide_eq_true_eq] at hty hbit
            obtain ⟨hfe, hty2⟩ := hty
            rw [hfe] at hv hbit hty2
            rw [hfe]
            cases hl : alistLookup dfqn mm with
            | none => simp only [hl] at hty2; exact absurd hty2 (by simp)
            | some cd' =>
              simp only [hl] at hty2 hbit
              obtain ⟨d, hd⟩ := (ih cd' (.vres dfqn vf vs) hty2).1 hbit
              refine ⟨d, ?_⟩
              simp only [rootVisitProp, hk, hl, hd]
          | vstr s' => simp [hv] at hty
          | vbool b' => simp [hv] at hty
          | vint n' => simp [hv] at hty
          | vrel => simp [hv] at hty
          | vundefined => simp [hv] at hty
        | array => simp [hk] at hty
        | enumeration => simp [hk] at hty
        | relationship => simp [hk] at hty
      have herr : ∀ q ∈ cd.props,
          (match q.kind with
            | .primitive => (alistLookup q.name salts).isSome
            | .nestedClass _ =>
              (match getField q.name fields with
               | .vres vfqn vf vs =>
                 (match alistLookup vfqn mm with
                  | some cd' => allSalted mm f cd' (.vres vfqn vf vs)
                  | none => false)
               | _ => false)
            | _ => false) = false →
          ∃ c, rootVisitProp sha mm (fun cd' v' => rootVisitClass sha mm f cd' v') q
            (getField q.name fields) (alistLookup q.name salts) =
            .error (.typeError c) := by
        intro q hq hbit
        have hty := htall q hq
        cases hk : q.kind with
        | primitive =>
          simp only [hk] at hty hbit
          have hprim : isPrimValue (getField q.name fields) = true := by
            revert hty
            cases getField q.name fields <;> simp [isPrimValue]
          obtain ⟨sv, hsv⟩ := jsonStringify_of_isPrim _ hprim
          cases hsb : alistLookup q.name salts with
          | some sb => rw [hsb] at hbit; simp at hbit
          | none =>
            exact ⟨"The data argument must not be undefined",
              by simp [rootVisitProp, hk, hsv, hsb]⟩
        | nestedClass dfqn =>
          simp only [hk] at hty hbit
          cases hv : getField q.name fields with
          | vres vfqn vf vs =>
            simp only [hv, Bool.and_eq_true, decide_eq_true_eq] at hty hbit
            obtain ⟨hfe, hty2⟩ := hty
            rw [hfe] at hv hbit hty2
            rw [hfe]
            cases hl : alistLookup dfqn mm with
            | none => simp only [hl] at hty2; exact absurd hty2 (by simp)
            | some cd' =>
              simp only [hl] at hty2 hbit
              obtain ⟨c, hc⟩ := (ih cd' (.vres dfqn vf vs) hty2).2 hbit
              refine ⟨c, ?_⟩
              simp only [rootVisitProp, hk, hl, hc]
          | vstr s' => simp [hv] at hty
          | vbool b' => simp [hv] at hty
          | vint n' => simp [hv] at hty
          | vrel => simp [hv] at hty
          | vundefined => simp [hv] at hty
        | array => simp [hk] at hty
        | enumeration => simp [hk] at hty
        | relationship => simp [hk] at hty
      constructor
      · intro hs
        simp only [allSalted, List.all_eq_true] at hs
        obtain ⟨ds, hds⟩ := rootVisitProps_ok _ cd.props fields salts
          (fun q hq => hok q hq (hs q hq))
        exact ⟨sha ds.flatten, by simp only [rootVisitClass, bind, Except.bind, hds]⟩
      · intro hs
        simp only [allSalted] at hs
        obtain ⟨c, hc⟩ := rootVisitProps_first_error _ _ cd.props fields salts
          (fun q hq => hok q hq) (fun q hq => herr q hq) hs
        exact ⟨c, by simp only [rootVisitClass, bind, Except.bind, hc]⟩
    | vstr s' => simp [typedOk] at ht
    | vbool b' => simp [typedOk] at ht
    | vint n' => simp [typedOk] at ht
    | vrel => simp [typedOk] at ht
    | vundefined => simp [typedOk] at ht

/-! ## Structure of `splitProof` and failure of the flattening on a proof
with no disclosure -/

theorem splitSeen_child (l : List ProofNode) : ∀ c c' a, splitSeen l c = (c', a) →
    (∀ d, c ≠ .digest d) → (c' = c ∨ c' ∈ l) ∧ ∀ d, c' ≠ .digest d := by
  induction l with
  | nil =>
    intro c c' a h hc
    simp only [splitSeen, Prod.mk.injEq] at h
    exact ⟨Or.inl h.1.symm, h.1 ▸ hc⟩
  | cons e rest ih =>
    intro c c' a h hc
    cases e with
    | digest d =>
      simp only [splitSeen] at h
      rcases hsr : splitSeen rest c with ⟨c'', a''⟩
      rw [hsr] at h
      simp only [Prod.mk.injEq] at h
      obtain ⟨h1, _⟩ := h
      have := ih c c'' a'' hsr hc
      rcases this with ⟨hm, hd⟩
      subst h1
      rcases hm with hm | hm
      · exact ⟨Or.inl hm, hd⟩
      · exact ⟨Or.inr (by simp [hm]), hd⟩
    | sentinel v s =>
      simp only [splitSeen] at h
      have := ih (.sentinel v s) c' a h (by intro d hd; cases hd)
      rcases this with ⟨hm, hd⟩
      rcases hm with hm | hm
      · exact ⟨Or.inr (by simp [hm]), hd⟩
      · exact ⟨Or.inr (by simp [hm]), hd⟩
    | level m =>
      simp only [splitSeen] at h
      have := ih (.level m) c' a h (by intro d hd; cases hd)
      rcases this with ⟨hm, hd⟩
      rcases hm with hm | hm
      · exact ⟨Or.inr (by simp [hm]), hd⟩
      · exact ⟨Or.inr (by simp [hm]), hd⟩

theorem splitProof_child (l : List ProofNode) : ∀ b c a, splitProof l = (b, some c, a) →
    c ∈ l ∧ ∀ d, c ≠ .digest d := by
  induction l with
  | nil =>
    intro b c a h
    simp only [splitProof, Prod.mk.injEq] at h
    exact absurd h.2.1 (by simp)
  | cons e rest ih =>
    intro b c a h
    cases e with
    | digest d =>
      simp only [splitProof] at h
      rcases hsr : splitProof rest with ⟨b', c', a'⟩
      rw [hsr] at h
      simp only [Prod.mk.injEq] at h
      obtain ⟨_, h2, h3⟩ := h
      rw [h2] at hsr
      have := ih b' c a' hsr
      exact ⟨by simp [this.1], this.2⟩
    | sentinel v s =>
      simp only [splitProof] at h
      rcases hsr : splitSeen rest (.sentinel v s) with ⟨c', a'⟩
      rw [hsr] at h
      simp only [Prod.mk.injEq, Option.some.injEq] at h
      obtain ⟨_, h2, _⟩ := h
      have := splitSeen_child rest (.sentinel v s) c' a' hsr (by intro d hd; cases hd)
      rw [← h2]
      rcases this with ⟨hm, hd⟩
      rcases hm with hm | hm
      · exact ⟨by simp [hm], hd⟩
      · exact ⟨by simp [hm], hd⟩
    | level m =>
      simp only [splitProof] at h
      rcases hsr : splitSeen rest (.level m) with ⟨c', a'⟩
      rw [hsr] at h
      simp only [Prod.mk.injEq, Option.some.injEq] at h
      obtain ⟨_, h2, _⟩ := h
      have := splitSeen_child rest (.level m) c' a' hsr (by intro d hd; cases hd)
      rw [← h2]
      rcases this with ⟨hm, hd⟩
      rcases hm with hm | hm
      · exact ⟨by simp [hm], hd⟩
      · exact ⟨by simp [hm], hd⟩

theorem proofVisitProps_nodes
    (visitProp : PropDecl → List String → Value → Option Bytes → Except Err (ProofNode × Value))
    (P : ProofNode → Prop)
    (props : List PropDecl) (cp : List String) (fields : List (String × Value))
    (salts : List (String × Bytes))
    (h : ∀ q ∈ props, ∃ node,
      visitProp q (cp ++ [q.name]) (getField q.name fields) (alistLookup q.name salts) =
        .ok (node, getField q.name fields) ∧ P node) :
    ∃ ns, proofVisitProps visitProp props cp fields salts = .ok (ns, fields) ∧
      ∀ n ∈ ns, P n := by
  induction props with
  | nil => exact ⟨[], rfl, by simp⟩
  | cons q rest ih =>
    obtain ⟨node, hnode, hP⟩ := h q (by simp)
    obtain ⟨ns, hns, hPs⟩ := ih fun x hx => h x (by simp [hx])
    refine ⟨node :: ns, ?_, ?_⟩
    · simp only [proofVisitProps, bind, Except.bind, hnode, writeBack_getField, hns]
    · intro n hn
      rcases List.mem_cons.mp hn with hn | hn
      · exact hn ▸ hP
      · exact hPs n hn

theorem proofVisitClass_no_leaf (sha : Bytes → Bytes) (mm : ModelManager)
    (path : List String) :
    ∀ fuel cd cp r, typedOk mm fuel cd r = true → allSalted mm fuel cd r = true →
    pathResolves mm path fuel cd cp = false →
    ∃ ns, proofVisitClass sha mm path fuel cd cp r = .ok (ns, r) ∧
      ∀ k, fuel ≤ k →
        flattenLoop k ns = .error (.typeError ("Cannot read properties of null")) := by
  intro fuel
  induction fuel with
  | zero => intro cd cp r ht; simp [typedOk] at ht
  | succ f ih =>
    intro cd cp r ht hs hres
    cases r with
    | vres fqn fields salts =>
      simp only [typedOk, Bool.and_eq_true, List.all_eq_true] at ht
      obtain ⟨hnodup, htall⟩ := ht
      simp only [allSalted, List.all_eq_true] at hs
      simp only [pathResolves, List.any_eq_false] at hres
      have hprops : ∀ q ∈ cd.props, ∃ node,
          proofVisitProp sha mm path
            (fun cd' cp' v' => proofVisitClass sha mm path f cd' cp' v')
            q (cp ++ [q.name]) (getField q.name fields) (alistLookup q.name salts) =
            .ok (node, getField q.name fields) ∧
          ((∃ d, node = .digest d) ∨
           (∃ m, node = .level m ∧ ∀ k, f ≤ k →
             flattenLoop k m = .error (.typeError ("Cannot read properties of null")))) := by
        intro q hq
        have hty := htall q hq
        have hsq := hs q hq
        have hrq := hres q hq
        cases hk : q.kind with
        | primitive =>
          simp only [hk] at hty hsq
          simp only [hk, Bool.not_eq_true] at hrq
          have hprim : isPrimValue (getField q.name fields) = true := by
            revert hty
            cases getField q.name fields <;> simp [isPrimValue]
          obtain ⟨sv, hsv⟩ := jsonStringify_of_isPrim _ hprim
          obtain ⟨sb, hsb⟩ := Option.isSome_iff_exists.mp hsq
          refine ⟨.digest (sha (utf8 sv ++ sb)), ?_, Or.inl ⟨_, rfl⟩⟩
          simp [proofVisitProp, hk, hrq, hsv, hsb]
        | nestedClass dfqn =>
          simp only [hk] at hty hsq
          simp only [hk] at hrq
          cases hv : getField q.name fields with
          | vres vfqn vf vs =>
            simp only [hv, Bool.and_eq_true, decide_eq_true_eq] at hty hsq
            obtain ⟨hfe, hty2⟩ := hty
            rw [hfe] at hv hsq hty2
            rw [hfe]
            cases hl : alistLookup dfqn mm with
            | none => simp only [hl] at hty2; exact absurd hty2 (by simp)
            | some cd' =>
              simp only [hl] at hty2 hsq
              simp only [hl, Bool.not_eq_true] at hrq
              obtain ⟨ns', hns', hflat⟩ :=
                ih cd' (cp ++ [q.name]) (.vres dfqn vf vs) hty2 hsq hrq
              refine ⟨.level ns', ?_, Or.inr ⟨ns', rfl, hflat⟩⟩
              simp only [proofVisitProp, hk, hl, hns', bind, Except.bind]
          | vstr s' => simp [hv] at hty
          | vbool b' => simp [hv] at hty
          | vint n' => simp [hv] at hty
          | vrel => simp [hv] at hty
          | vundefined => simp [hv] at hty
        | array => simp [hk] at hty
        | enumeration => simp [hk] at hty
        | relationship => simp [hk] at hty
      obtain ⟨ns, hns, hP⟩ := proofVisitProps_nodes _ _ cd.props cp fields salts hprops
      refine ⟨ns, by simp only [proofVisitClass, bind, Except.bind, hns], ?_⟩
      intro k hk
      cases k with
      | zero => omega
      | succ k' =>
        have hk' : f ≤ k' := by omega
        rcases hx : splitProof ns with ⟨b, c, a⟩
        cases c with
        | none => simp only [flattenLoop, hx]
        | some node =>
          have hmem := splitProof_child ns b node a hx
          have hPn := hP node hmem.1
          rcases hPn with ⟨d, hd⟩ | ⟨m, hm, hflat⟩
          · exact absurd hd (hmem.2 d)
          · subst hm
            simp only [flattenLoop, hx, bind, Except.bind, hflat k' hk']
    | vstr s' => simp [typedOk] at ht
    | vbool b' => simp [typedOk] at ht
    | vint n' => simp [typedOk] at ht
    | vrel => simp [typedOk] at ht
    | vundefined => simp [typedOk] at ht

/-! ## Support for the round-trip theorem -/

theorem exists_target_split (n : String) :
    ∀ props : List PropDecl,
    namesNodup (props.map (·.name)) = true →
    props.any (fun q => q.name = n) = true →
    ∃ pre tgt post, props = pre ++ tgt :: post ∧ tgt.name = n ∧
      (∀ x ∈ pre, x.name ≠ n) ∧ (∀ x ∈ post, x.name ≠ n) := by
  intro props
  induction props with
  | nil => intro _ hany; simp at hany
  | cons q rest ih =>
    intro hnodup hany
    simp only [List.map_cons, namesNodup, Bool.and_eq_true, List.all_eq_true,
      List.mem_map] at hnodup
    obtain ⟨hne, hnodup'⟩ := hnodup
    by_cases hqn : q.name = n
    · refine ⟨[], q, rest, by simp, hqn, by simp, ?_⟩
      intro x hx hxn
      have := hne x.name ⟨x, hx, rfl⟩
      simp [hxn, hqn] at this
    · have hany' : rest.any (fun q => q.name = n) = true := by
        simp only [List.any_cons, Bool.or_eq_true, decide_eq_true_eq] at hany
        rcases hany with h | h
        · exact absurd h hqn
        · exact h
      obtain ⟨pre, tgt, post, hsplit, htgt, hpre, hpost⟩ := ih hnodup' hany'
      refine ⟨q :: pre, tgt, post, by simp [hsplit], htgt, ?_, hpost⟩
      intro x hx
      rcases List.mem_cons.mp hx with hx | hx
      · exact hx ▸ hqn
      · exact hpre x hx

theorem pathEquals_append_ne (cp l1 l2 : List String) (h : l1 ≠ l2) :
    pathEquals (cp ++ l1) (cp ++ l2) = false := by
  apply pathEquals_of_ne
  intro hc
  exact h (List.append_cancel_left hc)

theorem verifyVisitProps_skip (sha : Bytes → Bytes)
    (visitProp : PropDecl → List String → HashPairs → Except Err (Option Bytes × HashPairs)) :
    ∀ (sib more : List PropDecl) (cp : List String) (hashes : HashPairs),
    (∀ x ∈ sib, visitProp x (cp ++ [x.name]) hashes = .ok (none, hashes)) →
    verifyVisitProps sha visitProp (sib ++ more) cp hashes =
      verifyVisitProps sha visitProp more cp hashes := by
  intro sib
  induction sib with
  | nil => intro more cp hashes _; rfl
  | cons x rest ih =>
    intro more cp hashes h
    have hx := h x (by simp)
    simp only [List.cons_append, verifyVisitProps, bind, Except.bind, hx]
    exact ih more cp hashes fun y hy => h y (by simp [hy])

theorem splitSeen_digests (ds : List Bytes) (c : ProofNode) :
    splitSeen (ds.map ProofNode.digest) c = (c, ds) := by
  induction ds with
  | nil => rfl
  | cons d rest ih => simp only [List.map_cons, splitSeen, ih]

theorem splitProof_digests_around (ds1 ds2 : List Bytes) (c : ProofNode)
    (hc : ∀ d, c ≠ .digest d) :
    splitProof (ds1.map ProofNode.digest ++ c :: ds2.map ProofNode.digest) =
      (ds1, some c, ds2) := by
  induction ds1 with
  | nil =>
    simp only [List.map_nil, List.nil_append]
    cases c with
    | digest d => exact absurd rfl (hc d)
    | sentinel v s => simp only [splitProof, splitSeen_digests]
    | level m => simp only [splitProof, splitSeen_digests]
  | cons d rest ih =>
    simp only [List.map_cons, List.cons_append, splitProof, List.append_eq, ih]

theorem parseHashes_append (h1 h2 : List (List String × List String)) :
    parseHashes (h1 ++ h2) = parseHashes h1 ++ parseHashes h2 :=
  List.map_append _ h1 h2

theorem parseHashes_entry (ds1 ds2 : List Bytes)
    (h1 : ∀ d ∈ ds1, ∀ b ∈ d, b < 256) (h2 : ∀ d ∈ ds2, ∀ b ∈ d, b < 256) :
    parseHashes [(ds1.map toHex, ds2.map toHex)] = [(ds1, ds2)] := by
  simp only [parseHashes, List.map_cons, List.map_nil]
  rw [fromHex_toHex_map ds1 h1, fromHex_toHex_map ds2 h2]

theorem sibling_segment (sha : Bytes → Bytes) (mm : ModelManager) (path : List String)
    (recurseR : ClassDecl → Value → Except Err (Bytes × Value))
    (recurseP : ClassDecl → List String → Value → Except Err (List ProofNode × Value)) :
    ∀ (sib : List PropDecl) (cp : List String) (fields : List (String × Value))
      (salts : List (String × Bytes)),
    (∀ x ∈ sib, x.kind = .primitive ∧ pathEquals path (cp ++ [x.name]) = false ∧
      isPrimValue (getField x.name fields) = true ∧
      ∃ s, alistLookup x.name salts = some s) →
    ∃ ds : List Bytes,
      (∀ l2, rootVisitProps (rootVisitProp sha mm recurseR) (sib ++ l2) fields salts =
        (rootVisitProps (rootVisitProp sha mm recurseR) l2 fields salts).map
          (fun r => (ds ++ r.1, r.2))) ∧
      (∀ l2, proofVisitProps (proofVisitProp sha mm path recurseP) (sib ++ l2) cp fields salts =
        (proofVisitProps (proofVisitProp sha mm path recurseP) l2 cp fields salts).map
          (fun r => (ds.map ProofNode.digest ++ r.1, r.2))) ∧
      (∀ d ∈ ds, ∃ x, d = sha x) := by
  intro sib
  induction sib with
  | nil =>
    intro cp fields salts _
    refine ⟨[], ?_, ?_, by simp⟩
    · intro l2
      simp only [List.nil_append]
      cases hres : rootVisitProps (rootVisitProp sha mm recurseR) l2 fields salts <;>
        simp [Except.map, hres]
    · intro l2
      simp only [List.nil_append]
      cases hres : proofVisitProps (proofVisitProp sha mm path recurseP) l2 cp fields salts <;>
        simp [Except.map, hres]
  | cons x rest ih =>
    intro cp fields salts h
    obtain ⟨hk, hpe, hprim, s, hs⟩ := h x (by simp)
    obtain ⟨ds, ihr, ihp, ihsha⟩ := ih cp fields salts fun y hy => h y (by simp [hy])
    obtain ⟨sv, hsv⟩ := jsonStringify_of_isPrim _ hprim
    refine ⟨sha (utf8 sv ++ s) :: ds, ?_, ?_, ?_⟩
    · intro l2
      have hx : rootVisitProp sha mm recurseR x (getField x.name fields)
          (alistLookup x.name salts) = .ok (sha (utf8 sv ++ s), getField x.name fields) := by
        simp [rootVisitProp, hk, hsv, hs]
      simp only [List.cons_append, rootVisitProps, bind, Except.bind, hx,
        writeBack_getField, List.append_eq]
      rw [ihr l2]
      cases hres : rootVisitProps (rootVisitProp sha mm recurseR) l2 fields salts <;>
        simp [Except.map, hres]
    · intro l2
      have hx : proofVisitProp sha mm path recurseP x (cp ++ [x.name])
          (getField x.name fields) (alistLookup x.name salts) =
          .ok (.digest (sha (utf8 sv ++ s)), getField x.name fields) := by
        simp [proofVisitProp, hk, hpe, hsv, hs]
      simp only [List.cons_append, proofVisitProps, bind, Except.bind, hx,
        writeBack_getField, List.append_eq]
      rw [ihp l2]
      cases hres : proofVisitProps (proofVisitProp sha mm path recurseP) l2 cp fields salts <;>
        simp [Except.map, hres]
    · intro d hd
      rcases List.mem_cons.mp hd with hd | hd
      · exact ⟨utf8 sv ++ s, hd⟩
      · exact ihsha d hd

theorem roundTrip_master (sha : Bytes → Bytes) (mm : ModelManager)
    (hbyte : ∀ x, ∀ b ∈ sha x, b < 256) :
    ∀ fuel cd r path cp,
      typedOk mm fuel cd r = true →
      saltsBytesOk mm fuel cd r = true →
      pathOk mm fuel cd path = true →
      ∃ (R : Bytes) (ns : List ProofNode) (pf : Proof),
        rootVisitClass sha mm fuel cd r = .ok (R, r) ∧
        proofVisitClass sha mm (cp ++ path) fuel cd cp r = .ok (ns, r) ∧
        (∀ k, fuel ≤ k → flattenLoop k ns = .ok pf) ∧
        (∀ rest, verifyVisitClass sha mm (cp ++ path) pf.value (fromHex pf.salt)
          fuel cd cp (parseHashes pf.hashes ++ rest) = .ok (some R, rest)) := by
  intro fuel
  induction fuel with
  | zero => intro cd r path cp ht; simp [typedOk] at ht
  | succ f ih =>
    intro cd r path cp ht hsb hp
    cases r with
    | vres fqn fields salts =>
      cases path with
      | nil => simp [pathOk] at hp
      | cons n p =>
        simp only [typedOk, Bool.and_eq_true, List.all_eq_true] at ht
        obtain ⟨hnodup, htall⟩ := ht
        simp only [saltsBytesOk, List.all_eq_true] at hsb
        simp only [pathOk, Bool.and_eq_true, List.all_eq_true] at hp
        obtain ⟨hany, hall⟩ := hp
        obtain ⟨pre, tgt, post, hsplit, htgtn, hpre, hpost⟩ :=
          exists_target_split n cd.props hnodup hany
        have hmem_pre : ∀ x ∈ pre, x ∈ cd.props := by
          intro x hx; rw [hsplit]; exact List.mem_append_left _ hx
        have hmem_post : ∀ x ∈ post, x ∈ cd.props := by
          intro x hx; rw [hsplit]; exact List.mem_append_right _ (List.mem_cons_of_mem _ hx)
        have hmem_tgt : tgt ∈ cd.props := by
          rw [hsplit]; exact List.mem_append_right _ (List.mem_cons_self _ _)
        have hsib : ∀ x ∈ cd.props, x.name ≠ n →
            x.kind = .primitive ∧ pathEquals (cp ++ n :: p) (cp ++ [x.name]) = false ∧
            isPrimValue (getField x.name fields) = true ∧
            ∃ s, alistLookup x.name salts = some s := by
          intro x hx hxn
          have h1 := hall x hx
          rw [if_neg hxn] at h1
          have hk : x.kind = .primitive := by
            revert h1; cases x.kind <;> simp [isPrimitiveKind]
          have h2 := htall x hx
          simp only [hk] at h2
          have hprim : isPrimValue (getField x.name fields) = true := by
            revert h2; cases getField x.name fields <;> simp [isPrimValue]
          have h3 := hsb x hx
          simp only [hk] at h3
          refine ⟨hk, ?_, hprim, ?_⟩
          · refine pathEquals_append_ne cp (n :: p) [x.name] ?_
            intro hc
            simp only [List.cons.injEq] at hc
            exact hxn hc.1.symm
          · cases hsalt : alistLookup x.name salts with
            | none => rw [hsalt] at h3; exact absurd h3 (by simp)
            | some s => exact ⟨s, rfl⟩
        obtain ⟨ds1, ihr1, ihp1, hsha1⟩ := sibling_segment sha mm (cp ++ n :: p)
          (fun cd' v' => rootVisitClass sha mm f cd' v')
          (fun cd' cp' v' => proofVisitClass sha mm (cp ++ n :: p) f cd' cp' v')
          pre cp fields salts
          (fun x hx => hsib x (hmem_pre x hx) (hpre x hx))
        obtain ⟨ds2, ihr2, ihp2, hsha2⟩ := sibling_segment sha mm (cp ++ n :: p)
          (fun cd' v' => rootVisitClass sha mm f cd' v')
          (fun cd' cp' v' => proofVisitClass sha mm (cp ++ n :: p) f cd' cp' v')
          post cp fields salts
          (fun x hx => hsib x (hmem_post x hx) (hpost x hx))
        have hds1bytes : ∀ d ∈ ds1, ∀ b ∈ d, b < 256 := by
          intro d hd b hb
          obtain ⟨x, hx⟩ := hsha1 d hd
          rw [hx] at hb
          exact hbyte x b hb
        have hds2bytes : ∀ d ∈ ds2, ∀ b ∈ d, b < 256 := by
          intro d hd b hb
          obtain ⟨x, hx⟩ := hsha2 d hd
          rw [hx] at hb
          exact hbyte x b hb
        have hpost0R : rootVisitProps
            (rootVisitProp sha mm fun cd' v' => rootVisitClass sha mm f cd' v')
            post fields salts = .ok (ds2, fields) := by
          have := ihr2 []
          rw [List.append_nil] at this
          simpa [rootVisitProps, Except.map] using this
        have hpost0P : proofVisitProps
            (proofVisitProp sha mm (cp ++ n :: p)
              fun cd' cp' v' => proofVisitClass sha mm (cp ++ n :: p) f cd' cp' v')
            post cp fields salts = .ok (ds2.map ProofNode.digest, fields) := by
          have := ihp2 []
          rw [List.append_nil] at this
          simpa [proofVisitProps, Except.map] using this
        have h1 := hall tgt hmem_tgt
        rw [if_pos htgtn] at h1
        cases p with
        | nil =>
          have hkt : tgt.kind = .primitive := by
            revert h1; cases tgt.kind <;> simp
          have h2 := htall tgt hmem_tgt
          simp only [hkt] at h2
          have hprimt : isPrimValue (getField tgt.name fields) = true := by
            revert h2; cases getField tgt.name fields <;> simp [isPrimValue]
          obtain ⟨sv, hsv⟩ := jsonStringify_of_isPrim _ hprimt
          have h3 := hsb tgt hmem_tgt
          simp only [hkt] at h3
          cases hsalt : alistLookup tgt.name salts with
          | none => rw [hsalt] at h3; exact absurd h3 (by simp)
          | some st =>
          rw [hsalt] at h3
          have hstbytes : ∀ b ∈ st, b < 256 := by
            intro b hb
            simp only [List.all_eq_true, decide_eq_true_eq] at h3
            exact h3 b hb
          have htR : rootVisitProp sha mm (fun cd' v' => rootVisitClass sha mm f cd' v') tgt
              (getField tgt.name fields) (alistLookup tgt.name salts) =
              .ok (sha (utf8 sv ++ st), getField tgt.name fields) := by
            simp [rootVisitProp, hkt, hsv, hsalt]
          have htP : proofVisitProp sha mm (cp ++ n :: ([] : List String))
              (fun cd' cp' v' => proofVisitClass sha mm (cp ++ n :: ([] : List String)) f cd' cp' v') tgt
              (cp ++ [tgt.name]) (getField tgt.name fields) (alistLookup tgt.name salts) =
              .ok (.sentinel (getField tgt.name fields) (some st), getField tgt.name fields) := by
            have hsalt2 : alistLookup n salts = some st := htgtn ▸ hsalt
            simp [proofVisitProp, hkt, htgtn, pathEquals_self, hsalt, hsalt2]
          refine ⟨sha (ds1 ++ sha (utf8 sv ++ st) :: ds2).flatten,
            ds1.map ProofNode.digest ++
              .sentinel (getField tgt.name fields) (some st) :: ds2.map ProofNode.digest,
            ⟨[(ds1.map toHex, ds2.map toHex)], getField tgt.name fields, toHex st⟩,
            ?_, ?_, ?_, ?_⟩
          · simp only [rootVisitClass, bind, Except.bind]
            rw [hsplit, ihr1 (tgt :: post)]
            have hcons : rootVisitProps
                (rootVisitProp sha mm fun cd' v' => rootVisitClass sha mm f cd' v')
                (tgt :: post) fields salts = .ok (sha (utf8 sv ++ st) :: ds2, fields) := by
              simp only [rootVisitProps, bind, Except.bind, htR, writeBack_getField, hpost0R]
            rw [hcons]
            simp [Except.map]
          · simp only [proofVisitClass, bind, Except.bind]
            rw [hsplit, ihp1 (tgt :: post)]
            have hcons : proofVisitProps
                (proofVisitProp sha mm (cp ++ n :: ([] : List String))
                  fun cd' cp' v' => proofVisitClass sha mm (cp ++ n :: ([] : List String)) f cd' cp' v')
                (tgt :: post) cp fields salts =
                .ok (.sentinel (getField tgt.name fields) (some st) :: ds2.map ProofNode.digest,
                  fields) := by
              simp only [proofVisitProps, bind, Except.bind, htP, writeBack_getField, hpost0P]
            rw [hcons]
            simp [Except.map]
          · intro k hk
            cases k with
            | zero => omega
            | succ k' =>
              have hsplitpf := splitProof_digests_around ds1 ds2
                (.sentinel (getField tgt.name fields) (some st)) (by intro d hd; cases hd)
              simp only [flattenLoop, hsplitpf]
          · intro rest
            show verifyVisitClass sha mm (cp ++ n :: ([] : List String)) (getField tgt.name fields)
              (fromHex (toHex st)) (f + 1) cd cp
              (parseHashes [(ds1.map toHex, ds2.map toHex)] ++ rest) = .ok (_, rest)
            rw [fromHex_toHex st hstbytes, parseHashes_entry ds1 ds2 hds1bytes hds2bytes]
            simp only [verifyVisitClass, List.singleton_append]
            rw [hsplit]
            rw [verifyVisitProps_skip sha _ pre (tgt :: post) cp ((ds1, ds2) :: rest) ?hskipA]
            case hskipA =>
              intro x hx
              obtain ⟨hk, hpe, _, _⟩ := hsib x (hmem_pre x hx) (hpre x hx)
              simp [verifyVisitProp, hk, hpe]
            have htV : verifyVisitProp sha mm (cp ++ n :: ([] : List String))
                (getField tgt.name fields) st
                (fun cd' cp' h' => verifyVisitClass sha mm (cp ++ n :: ([] : List String))
                  (getField tgt.name fields) st f cd' cp' h')
                tgt (cp ++ [tgt.name]) ((ds1, ds2) :: rest) =
                .ok (some (sha (utf8 sv ++ st)), (ds1, ds2) :: rest) := by
              have hsv2 : jsonStringify (getField n fields) = some sv := htgtn ▸ hsv
              simp [verifyVisitProp, hkt, htgtn, pathEquals_self, hsv, hsv2]
            simp only [verifyVisitProps, bind, Except.bind, htV]
            have : sha (ds1.flatten ++ sha (utf8 sv ++ st) ++ ds2.flatten) =
                sha (ds1 ++ sha (utf8 sv ++ st) :: ds2).flatten := by
              congr 1
              simp [List.flatten_append, List.append_assoc]
            rw [this]
        | cons p1 ps =>
          have hkt : ∃ dfqn, tgt.kind = .nestedClass dfqn := by
            revert h1; cases tgt.kind <;> simp
          obtain ⟨dfqn, hkt⟩ := hkt
          simp only [hkt] at h1
          have h2 := htall tgt hmem_tgt
          simp only [hkt] at h2
          cases hv : getField tgt.name fields with
          | vres vfqn vf vs =>
            simp only [hv, Bool.and_eq_true, decide_eq_true_eq] at h2
            obtain ⟨hfe, hty2⟩ := h2
            rw [hfe] at hv hty2
            cases hl : alistLookup dfqn mm with
            | none => simp only [hl] at h1; exact absurd h1 (by simp)
            | some cd' =>
              simp only [hl] at h1 hty2
              have h3 := hsb tgt hmem_tgt
              simp only [hkt, hv, hl] at h3
              obtain ⟨R', ns', pf', hroot', hproof', hflat', hverify'⟩ :=
                ih cd' (.vres dfqn vf vs) (p1 :: ps) (cp ++ [n]) hty2 h3 h1
              have hpathassoc : (cp ++ [n]) ++ (p1 :: ps) = cp ++ n :: p1 :: ps := by
                simp
              rw [hpathassoc] at hproof' hverify'
              have htR : rootVisitProp sha mm (fun cd' v' => rootVisitClass sha mm f cd' v') tgt
                  (getField tgt.name fields) (alistLookup tgt.name salts) =
                  .ok (R', getField tgt.name fields) := by
                rw [hv]
                simp only [rootVisitProp, hkt, hl, hroot']
              have htP : proofVisitProp sha mm (cp ++ n :: p1 :: ps)
                  (fun cd'' cp' v' => proofVisitClass sha mm (cp ++ n :: p1 :: ps) f cd'' cp' v') tgt
                  (cp ++ [tgt.name]) (getField tgt.name fields) (alistLookup tgt.name salts) =
                  .ok (.level ns', getField tgt.name fields) := by
                rw [hv, htgtn]
                simp only [proofVisitProp, hkt, hl, bind, Except.bind, hproof']
              refine ⟨sha (ds1 ++ R' :: ds2).flatten,
                ds1.map ProofNode.digest ++ .level ns' :: ds2.map ProofNode.digest,
                ⟨pf'.hashes ++ [(ds1.map toHex, ds2.map toHex)], pf'.value, pf'.salt⟩,
                ?_, ?_, ?_, ?_⟩
              · simp only [rootVisitClass, bind, Except.bind]
                rw [hsplit, ihr1 (tgt :: post)]
                have hcons : rootVisitProps
                    (rootVisitProp sha mm fun cd'' v' => rootVisitClass sha mm f cd'' v')
                    (tgt :: post) fields salts = .ok (R' :: ds2, fields) := by
                  simp only [rootVisitProps, bind, Except.bind, htR, writeBack_getField, hpost0R]
                rw [hcons]
                simp [Except.map]
              · simp only [proofVisitClass, bind, Except.bind]
                rw [hsplit, ihp1 (tgt :: post)]
                have hcons : proofVisitProps
                    (proofVisitProp sha mm (cp ++ n :: p1 :: ps)
                      fun cd'' cp' v' => proofVisitClass sha mm (cp ++ n :: p1 :: ps) f cd'' cp' v')
                    (tgt :: post) cp fields salts =
                    .ok (.level ns' :: ds2.map ProofNode.digest, fields) := by
                  simp only [proofVisitProps, bind, Except.bind, htP, writeBack_getField, hpost0P]
                rw [hcons]
                simp [Except.map]
              · intro k hk
                cases k with
                | zero => omega
                | succ k' =>
                  have hsplitpf := splitProof_digests_around ds1 ds2 (.level ns')
                    (by intro d hd; cases hd)
                  simp only [flattenLoop, hsplitpf, bind, Except.bind, hflat' k' (by omega)]
              · intro rest
                show verifyVisitClass sha mm (cp ++ n :: p1 :: ps) pf'.value
                  (fromHex pf'.salt) (f + 1) cd cp
                  (parseHashes (pf'.hashes ++ [(ds1.map toHex, ds2.map toHex)]) ++ rest) =
                  .ok (_, rest)
                rw [parseHashes_append, parseHashes_entry ds1 ds2 hds1bytes hds2bytes,
                  List.append_assoc]
                simp only [verifyVisitClass, List.singleton_append]
                rw [hsplit]
                rw [verifyVisitProps_skip sha _ pre (tgt :: post) cp
                  (parseHashes pf'.hashes ++ ((ds1, ds2) :: rest)) ?hskipB]
                case hskipB =>
                  intro x hx
                  obtain ⟨hk, hpe, _, _⟩ := hsib x (hmem_pre x hx) (hpre x hx)
                  simp [verifyVisitProp, hk, hpe]
                have htV : verifyVisitProp sha mm (cp ++ n :: p1 :: ps) pf'.value
                    (fromHex pf'.salt)
                    (fun cd'' cp' h' => verifyVisitClass sha mm (cp ++ n :: p1 :: ps) pf'.value
                      (fromHex pf'.salt) f cd'' cp' h')
                    tgt (cp ++ [tgt.name])
                    (parseHashes pf'.hashes ++ ((ds1, ds2) :: rest)) =
                    .ok (some R', (ds1, ds2) :: rest) := by
                  rw [htgtn]
                  simp only [verifyVisitProp, hkt, hl]
                  have := hverify' ((ds1, ds2) :: rest)
                  simpa using this
                simp only [verifyVisitProps, bind, Except.bind, htV]
                have : sha (ds1.flatten ++ R' ++ ds2.flatten) =
                    sha (ds1 ++ R' :: ds2).flatten := by
                  congr 1
                  simp [List.flatten_append, List.append_assoc]
                rw [this]
          | vstr s' => simp [hv] at h2
          | vbool b' => simp [hv] at h2
          | vint n' => simp [hv] at h2
          | vrel => simp [hv] at h2
          | vundefined => simp [hv] at h2
    | vstr s' => simp [typedOk] at ht
    | vbool b' => simp [typedOk] at ht
    | vint n' => simp [typedOk] at ht
    | vrel => simp [typedOk] at ht
    | vundefined => simp [typedOk] at ht

/-! ## The salt engine populates 32-byte salts in the owning stores -/

theorem allSaltedLen32_succ (mm : ModelManager) (f : Nat) (cd : ClassDecl) (fqn : String)
    (fields : List (String × Value)) (salts : List (String × Bytes)) :
    allSaltedLen32 mm (f + 1) cd (.vres fqn fields salts) =
      cd.props.all fun q => saltCheckProp mm f q fields salts := rfl

theorem alistLookup_of_getField (n : String) (fields : List (String × Value)) (v : Value)
    (h : getField n fields = v) (hne : v ≠ .vundefined) : alistLookup n fields = some v := by
  unfold getField at h
  cases hl : alistLookup n fields with
  | none => rw [hl] at h; simp at h; exact absurd h.symm hne
  | some w => rw [hl] at h; simp at h; rw [h]

theorem getField_alistSet_self (n : String) (v : Value) (fields : List (String × Value)) :
    getField n (alistSet n v fields) = v := by
  unfold getField
  rw [alistLookup_alistSet_self]
  rfl

theorem getField_alistSet_ne (n n' : String) (v : Value) (fields : List (String × Value))
    (h : n ≠ n') : getField n' (alistSet n v fields) = getField n' fields := by
  unfold getField
  rw [alistLookup_alistSet_ne n n' v fields h]

theorem primNames_not_contains (cd : ClassDecl) (k : String)
    (h : (primNames cd).contains k = false) :
    ∀ q ∈ cd.props, q.kind = .primitive → q.name ≠ k := by
  intro q hq hk hname
  have hmem : k ∈ primNames cd := by
    simp only [primNames, List.mem_map]
    exact ⟨q, List.mem_filter.mpr ⟨hq, by simp [isPrimitiveKind, hk]⟩, hname⟩
  rw [List.contains_eq_any_beq] at h
  have hc : (primNames cd).any (fun x => k == x) = true :=
    List.any_eq_true.mpr ⟨k, hmem, by simp⟩
  rw [hc] at h
  cases h

theorem saltVisitClass_shape (mm : ModelManager) (rng : Nat → Bytes) :
    ∀ fuel cd v ctr v' ctr', saltVisitClass mm rng fuel cd v ctr = .ok (v', ctr') →
    ∃ fqn fields salts fields' salts',
      v = .vres fqn fields salts ∧ v' = .vres fqn fields' salts' := by
  intro fuel cd v ctr v' ctr' h
  cases fuel with
  | zero => simp [saltVisitClass] at h
  | succ f =>
    cases v with
    | vres fqn fields salts =>
      simp only [saltVisitClass, bind, Except.bind] at h
      split at h
      · exact absurd h (by simp)
      · next out heq =>
        simp only [Except.ok.injEq, Prod.mk.injEq] at h
        exact ⟨fqn, fields, salts, out.1, out.2.1, rfl, h.1.symm⟩
    | vstr s => simp [saltVisitClass] at h
    | vbool b => simp [saltVisitClass] at h
    | vint n => simp [saltVisitClass] at h
    | vrel => simp [saltVisitClass] at h
    | vundefined => simp [saltVisitClass] at h

theorem saltVisitProps_spec (mm : ModelManager) (rng : Nat → Bytes)
    (hrng : ∀ i, (rng i).length = 32) (f : Nat)
    (hrec : ∀ cd2 v ctr v' ctr', saltVisitClass mm rng f cd2 v ctr = .ok (v', ctr') →
      allSaltedLen32 mm f cd2 v' = true) :
    ∀ (props : List PropDecl) (fields : List (String × Value)) (salts : List (String × Bytes))
      (ctr : Nat) (out : List (String × Value) × List (String × Bytes) × Nat),
      saltVisitProps (saltVisitProp mm rng fun cd2 v2 c2 => saltVisitClass mm rng f cd2 v2 c2)
        props fields salts ctr = .ok out →
      (∀ q ∈ props, saltCheckProp mm f q out.1 out.2.1 = true) ∧
      (∀ q', saltCheckProp mm f q' fields salts = true →
        saltCheckProp mm f q' out.1 out.2.1 = true) ∧
      (∀ k, (∀ q ∈ props, q.kind = .primitive → q.name ≠ k) →
        alistLookup k out.2.1 = alistLookup k salts) := by
  intro props
  induction props with
  | nil =>
    intro fields salts ctr out h
    obtain ⟨f3, s3, c3⟩ := out
    simp only [saltVisitProps, Except.ok.injEq, Prod.mk.injEq] at h
    obtain ⟨h1, h2, h3⟩ := h
    subst h1
    subst h2
    exact ⟨by simp, fun q' hq' => hq', fun k _ => rfl⟩
  | cons q rest ih =>
    intro fields salts ctr out h
    simp only [saltVisitProps, bind, Except.bind] at h
    split at h
    · exact absurd h (by simp)
    · next svc heq =>
      cases hk : q.kind with
      | primitive =>
        have hsvc : svc = (some (rng ctr), getField q.name fields, ctr + 1) := by
          simp only [saltVisitProp, hk] at heq
          simp only [Except.ok.injEq] at heq
          exact heq.symm
        subst hsvc
        simp only [writeBack_getField] at h
        have hstep : ∀ q', saltCheckProp mm f q' fields salts = true →
            saltCheckProp mm f q' fields (alistSet q.name (rng ctr) salts) = true := by
          intro q' hq'
          cases hk' : q'.kind with
          | primitive =>
            simp only [saltCheckProp, hk'] at hq' ⊢
            by_cases hnn : q.name = q'.name
            · rw [← hnn, alistLookup_alistSet_self]
              simp [hrng]
            · rw [alistLookup_alistSet_ne _ _ _ _ hnn]
              exact hq'
          | nestedClass dfqn => simpa only [saltCheckProp, hk'] using hq'
          | array => simp [saltCheckProp, hk'] at hq'
          | enumeration => simp [saltCheckProp, hk'] at hq'
          | relationship => simp [saltCheckProp, hk'] at hq'
        have hqcheck : saltCheckProp mm f q fields (alistSet q.name (rng ctr) salts) = true := by
          simp only [saltCheckProp, hk, alistLookup_alistSet_self]
          simp [hrng]
        obtain ⟨ih1, ih2, ih3⟩ := ih fields (alistSet q.name (rng ctr) salts) (ctr + 1) out h
        refine ⟨?_, ?_, ?_⟩
        · intro x hx
          rcases List.mem_cons.mp hx with hx | hx
          · exact hx ▸ ih2 q hqcheck
          · exact ih1 x hx
        · intro q' hq'
          exact ih2 q' (hstep q' hq')
        · intro k hknames
          rw [ih3 k fun x hx => hknames x (by simp [hx])]
          have hqk : q.name ≠ k := hknames q (by simp) hk
          exact alistLookup_alistSet_ne _ _ _ _ hqk
      | nestedClass dfqn =>
        simp only [saltVisitProp, hk] at heq
        cases hv : getField q.name fields with
        | vres vfqn f2 s2 =>
          simp only [hv] at heq
          cases hl : alistLookup vfqn mm with
          | none => simp only [hl] at heq; exact absurd heq (by simp)
          | some cd2 =>
            simp only [hl] at heq
            simp only [bind, Except.bind] at heq
            split at heq
            · exact absurd heq (by simp)
            · next vc hr =>
              simp only [Except.ok.injEq] at heq
              rw [← heq] at h
              obtain ⟨vfqn2, f2a, s2a, f2', s2', hvin, hvout⟩ :=
                saltVisitClass_shape mm rng f cd2 (.vres vfqn f2 s2) ctr vc.1 vc.2 (by
                  rw [hr])
              have hvfqn2 : vfqn2 = vfqn := by
                cases hvin
                rfl
              rw [hvfqn2] at hvout
              have hlookupf : alistLookup q.name fields = some (.vres vfqn f2 s2) :=
                alistLookup_of_getField q.name fields _ hv (by intro hc; cases hc)
              have hwb : writeBack q.name vc.1 fields = alistSet q.name vc.1 fields := by
                unfold writeBack
                rw [hlookupf]
              rw [hwb] at h
              have hcheck32 : allSaltedLen32 mm f cd2 vc.1 = true :=
                hrec cd2 (.vres vfqn f2 s2) ctr vc.1 vc.2 (by rw [hr])
              have hstep : ∀ q', saltCheckProp mm f q' fields salts = true →
                  saltCheckProp mm f q' (alistSet q.name vc.1 fields) salts = true := by
                intro q' hq'
                cases hk' : q'.kind with
                | primitive => simpa only [saltCheckProp, hk'] using hq'
                | nestedClass dfqn' =>
                  simp only [saltCheckProp, hk'] at hq' ⊢
                  by_cases hnn : q.name = q'.name
                  · rw [← hnn, getField_alistSet_self, hvout]
                    rw [hvout] at hcheck32
                    simp only [hl]
                    exact hcheck32
                  · rw [getField_alistSet_ne _ _ _ _ hnn]
                    exact hq'
                | array => simp [saltCheckProp, hk'] at hq'
                | enumeration => simp [saltCheckProp, hk'] at hq'
                | relationship => simp [saltCheckProp, hk'] at hq'
              have hqcheck : saltCheckProp mm f q (alistSet q.name vc.1 fields) salts = true := by
                simp only [saltCheckProp, hk, getField_alistSet_self, hvout]
                rw [hvout] at hcheck32
                simp only [hl]
                exact hcheck32
              obtain ⟨ih1, ih2, ih3⟩ := ih (alistSet q.name vc.1 fields) salts vc.2 out h
              refine ⟨?_, ?_, ?_⟩
              · intro x hx
                rcases List.mem_cons.mp hx with hx | hx
                · exact hx ▸ ih2 q hqcheck
                · exact ih1 x hx
              · intro q' hq'
                exact ih2 q' (hstep q' hq')
              · intro k hknames
                exact ih3 k fun x hx => hknames x (by simp [hx])
        | vstr s' => simp only [hv] at heq; exact absurd heq (by simp)
        | vbool b' => simp only [hv] at heq; exact absurd heq (by simp)
        | vint n' => simp only [hv] at heq; exact absurd heq (by simp)
        | vrel => simp only [hv] at heq; exact absurd heq (by simp)
        | vundefined => simp only [hv] at heq; exact absurd heq (by simp)
      | array => simp [saltVisitProp, hk] at heq
      | enumeration => simp [saltVisitProp, hk] at heq
      | relationship =>
        revert heq
        cases getField q.name fields <;> simp [saltVisitProp, hk]

theorem saltVisitClass_spec (mm : ModelManager) (rng : Nat → Bytes)
    (hrng : ∀ i, (rng i).length = 32) :
    ∀ fuel cd v ctr v' ctr',
      saltVisitClass mm rng fuel cd v ctr = .ok (v', ctr') →
      allSaltedLen32 mm fuel cd v' = true ∧
      saltsAgreeOff (primNames cd) (vresSalts v') (vresSalts v) = true := by
  intro fuel
  induction fuel with
  | zero => intro cd v ctr v' ctr' h; simp [saltVisitClass] at h
  | succ f ih =>
    intro cd v ctr v' ctr' h
    cases v with
    | vres fqn fields salts =>
      simp only [saltVisitClass, bind, Except.bind] at h
      split at h
      · exact absurd h (by simp)
      · next out heq =>
        simp only [Except.ok.injEq, Prod.mk.injEq] at h
        obtain ⟨hv', _⟩ := h
        obtain ⟨hall, _, hoff⟩ := saltVisitProps_spec mm rng hrng f
          (fun cd2 v2 c2 v2' c2' hr => (ih cd2 v2 c2 v2' c2' hr).1)
          cd.props fields salts ctr out heq
        constructor
        · rw [← hv', allSaltedLen32_succ]
          simp only [List.all_eq_true]
          exact hall
        · rw [← hv']
          show saltsAgreeOff (primNames cd) out.2.1 salts = true
          have hoffk : ∀ k, (primNames cd).contains k = false →
              alistLookup k out.2.1 = alistLookup k salts := by
            intro k hc
            exact hoff k (primNames_not_contains cd k hc)
          simp only [saltsAgreeOff, Bool.and_eq_true, List.all_eq_true]
          constructor
          · intro kv _
            cases hc : (primNames cd).contains kv.1 with
            | true => simp
            | false => simp [hoffk kv.1 hc]
          · intro kv _
            cases hc : (primNames cd).contains kv.1 with
            | true => simp
            | false => simp [hoffk kv.1 hc]
    | vstr s => simp [saltVisitClass] at h
    | vbool b => simp [saltVisitClass] at h
    | vint n => simp [saltVisitClass] at h
    | vrel => simp [saltVisitClass] at h
    | vundefined => simp [saltVisitClass] at h

/-! ## Facts about the concrete fixtures -/

theorem shaModel_length (x : Bytes) : (shaModel x).length = 32 := by
  simp [shaModel]

theorem shaModel_bytes (x : Bytes) : ∀ b ∈ shaModel x, b < 256 := by
  intro b hb
  simp only [shaModel, List.mem_append, List.mem_replicate, List.mem_singleton] at hb
  rcases hb with ⟨_, h⟩ | h
  · omega
  · rw [h]; exact Nat.mod_lt _ (by norm_num)

theorem rngZero_length (i : Nat) : (rngZero i).length = 32 := by
  simp [rngZero]

/-! ## The claims -/

/-- Claim C1, counterexample to the claim as stated: the record
`{a: "x", inner: {k: "v"}}` has its salts populated by the salt engine,
and the path `["a"]` addresses a primitive leaf, yet `Merkle.proof` throws
a `TypeError` (reading `$value` of `null` during flattening, because the
non-disclosed nested-class sibling `inner` contributes a raw list instead
of a digest), so the round trip cannot return `true`. -/
theorem claim1_counterexample :
    Merkle.salt mmOuter rngZero 3 recOuterBare = .ok recOuterSalted ∧
    Merkle.proof shaModel mmOuter 3 recOuterSalted ["a"] =
      .error (.typeError ("Cannot read properties of null")) ∧
    roundTripCheck shaModel mmOuter 3 ("org.test") ("Outer") recOuterSalted ["a"] = false :=
  ⟨rfl, rfl, rfl⟩

/-- Claim C1 (amended): for every well-typed record with byte-valued salts
on all reachable primitive leaves, and every path addressing a primitive
leaf through nested-class fields such that every sibling property at every
class node along the path is primitive,
`verify(ns, ty, path, root(record), proof(record, path))` returns
`true`. -/
theorem claim1_roundTrip_amended (sha : Bytes → Bytes) (mm : ModelManager) (fuel : Nat)
    (nsp typ fqn : String) (fields : List (String × Value)) (salts : List (String × Bytes))
    (cd : ClassDecl) (path : List String)
    (hbyte : ∀ x, ∀ b ∈ sha x, b < 256)
    (hfqn : fqn = nsp ++ "." ++ typ)
    (hcd : alistLookup fqn mm = some cd)
    (ht : typedOk mm fuel cd (.vres fqn fields salts) = true)
    (hsb : saltsBytesOk mm fuel cd (.vres fqn fields salts) = true)
    (hp : pathOk mm fuel cd path = true) :
    roundTripCheck sha mm fuel nsp typ (.vres fqn fields salts) path = true := by
  obtain ⟨R, nodes, pf, hroot, hproof, hflat, hverify⟩ :=
    roundTrip_master sha mm hbyte fuel cd (.vres fqn fields salts) path [] ht hsb hp
  rw [List.nil_append] at hproof hverify
  have hget : getTypeOf mm (.vres fqn fields salts) = .ok cd := by
    simp [getTypeOf, hcd]
  have hproofM : Merkle.proof sha mm fuel (.vres fqn fields salts) path = .ok pf := by
    simp only [Merkle.proof, bind, Except.bind, hget, hproof, hflat fuel le_rfl]
  have hrootM : Merkle.root sha mm fuel (.vres fqn fields salts) = .ok (toHex R) := by
    simp only [Merkle.root, bind, Except.bind, hget, hroot]
  have hverifyM : Merkle.verify sha mm fuel nsp typ path (toHex R) pf = .ok true := by
    have hl : alistLookup (nsp ++ "." ++ typ) mm = some cd := by rw [← hfqn]; exact hcd
    have hv := hverify []
    rw [List.append_nil] at hv
    simp only [Merkle.verify, hl, bind, Except.bind, hv]
    simp
  simp only [roundTripCheck, hproofM, hrootM, hverifyM]

/-- Witness for C1's amended theorem: the nested record
`{a: "x", inner: {k: "v"}}` with zero salts and path `["inner", "k"]`,
whose only sibling along the path (`a`) is primitive. -/
theorem claim1_witness :
    roundTripCheck shaModel mmOuter 3 ("org.test") ("Outer")
      (.vres ("org.test.Outer")
        [("a", .vstr ("x")),
         ("inner", .vres ("org.test.Inner") [("k", .vstr ("v"))] [("k", zeros32)])]
        [("a", zeros32)]) ["inner", "k"] = true :=
  claim1_roundTrip_amended shaModel mmOuter 3 ("org.test") ("Outer") _ _ _ _ ["inner", "k"]
    shaModel_bytes (by decide) rfl rfl rfl rfl

/-- Claim C2: verifying a proof made for path `["a"]` of the two-field
class `{String a, String b}` against the record's root, but claiming path
`["b"]`, returns `true`, not `false` as the specification requires: the
verifier inserts the recomputed leaf digest between the proof's `before`
and `after` lists, so the claimed position never enters the hash. -/
theorem claim2_path_confusion_accepts :
    (["b"] : List String) ≠ ["a"] ∧
    (do
      let pf ← Merkle.proof shaModel mmPair 2 recPair ["a"]
      let rt ← Merkle.root shaModel mmPair 2 recPair
      Merkle.verify shaModel mmPair 2 ("org.test") ("Pair") ["b"] rt pf) = .ok true :=
  ⟨by decide, rfl⟩

/-- Claim C3, counterexample to the claim as stated: a proof for the
single-field class with one surplus `hashes` entry (two entries, one class
node) verifies as `true`; the surplus is never consumed, so verification
does not "fail by returning false". -/
theorem claim3_counterexample :
    (do
      let rt ← Merkle.root shaModel mmThing 2 recAlice
      Merkle.verify shaModel mmThing 2 ("org.test") ("Thing") ["name"] rt
        ⟨[([], []), ([], [])], .vstr ("alice"), toHex zeros32⟩) = .ok true := rfl

/-- Claim C3 (amended): a shortfall of `hashes` entries makes `verify`
abort with a `TypeError` (destructuring the `undefined` shifted from the
exhausted list), not return `false`; surplus entries are left unconsumed,
so a proof with surplus entries can still verify as `true`. -/
theorem claim3_amended_behaviour :
    (∀ (sha : Bytes → Bytes) (fuel : Nat) (v : Value) (saltHex rootHex : String),
      exceptIsTypeError (Merkle.verify sha mmThing (fuel + 1) ("org.test") ("Thing") ["name"]
        rootHex ⟨[], v, saltHex⟩) = true) ∧
    (do
      let rt ← Merkle.root shaModel mmThing 2 recAlice
      Merkle.verify shaModel mmThing 2 ("org.test") ("Thing") ["name"] rt
        ⟨[([], []), ([], [])], .vstr ("alice"), toHex zeros32⟩) = .ok true := by
  refine ⟨?_, rfl⟩
  intro sha fuel v saltHex rootHex
  cases v <;> rfl

/-- Claim C4, counterexample to the claim as stated: a record whose
`name` leaf has no salt makes the root engine abort with a generic
`TypeError` from `hash.update(undefined)`, not a `SaltMissing` error. -/
theorem claim4_counterexample :
    Merkle.root shaModel mmThing 2 recAliceNoSalt =
      .error (.typeError ("The data argument must not be undefined")) ∧
    Err.typeError ("The data argument must not be undefined") ≠ Err.saltMissing :=
  ⟨rfl, by decide⟩

/-- Claim C4 (amended): for every well-typed record (no arrays, enums or
relationships reachable) in which some reachable primitive leaf has no
salt entry, the root engine aborts with a `TypeError` (from hashing the
`undefined` salt) rather than producing a digest. -/
theorem claim4_missing_salt_type_error (sha : Bytes → Bytes) (mm : ModelManager) (fuel : Nat)
    (fqn : String) (fields : List (String × Value)) (salts : List (String × Bytes))
    (cd : ClassDecl)
    (hcd : alistLookup fqn mm = some cd)
    (ht : typedOk mm fuel cd (.vres fqn fields salts) = true)
    (hs : allSalted mm fuel cd (.vres fqn fields salts) = false) :
    exceptIsTypeError (Merkle.root sha mm fuel (.vres fqn fields salts)) = true := by
  obtain ⟨c, hc⟩ := (rootVisitClass_total sha mm fuel cd _ ht).2 hs
  simp [Merkle.root, getTypeOf, hcd, bind, Except.bind, hc, exceptIsTypeError]

/-- Witness for C4's amended theorem at the unsalted S1 record. -/
theorem claim4_witness :
    exceptIsTypeError (Merkle.root shaModel mmThing 2
      (.vres ("org.test.Thing") [("name", .vstr ("alice"))] [])) = true :=
  claim4_missing_salt_type_error shaModel mmThing 2 ("org.test.Thing") _ _ _ rfl rfl rfl

/-- Claim C5, counterexample to the claim as stated: `proof` with an empty
path aborts with a `TypeError` (reading a property of `null` in the
flattening loop); no `PathInvalid` error exists in the code. -/
theorem claim5_counterexample :
    Merkle.proof shaModel mmThing 2 recAlice [] =
      .error (.typeError ("Cannot read properties of null")) ∧
    Err.typeError ("Cannot read properties of null") ≠ Err.pathInvalid :=
  ⟨rfl, by decide⟩

/-- Claim C5 (amended): for every well-typed, fully salted record, calling
`proof` with an empty path, or with any path that does not resolve to a
primitive leaf of the schema walk, aborts with a generic `TypeError` from
dereferencing the `null` proof child, not with a `PathInvalid` error. -/
theorem claim5_no_leaf_type_error (sha : Bytes → Bytes) (mm : ModelManager) (fuel : Nat)
    (fqn : String) (fields : List (String × Value)) (salts : List (String × Bytes))
    (cd : ClassDecl) (path : List String)
    (hcd : alistLookup fqn mm = some cd)
    (ht : typedOk mm fuel cd (.vres fqn fields salts) = true)
    (hs : allSalted mm fuel cd (.vres fqn fields salts) = true)
    (hnl : pathResolves mm path fuel cd [] = false) :
    Merkle.proof sha mm fuel (.vres fqn fields salts) path =
      .error (.typeError ("Cannot read properties of null")) := by
  obtain ⟨ns, hns, hflat⟩ :=
    proofVisitClass_no_leaf sha mm path fuel cd [] (.vres fqn fields salts) ht hs hnl
  simp [Merkle.proof, getTypeOf, hcd, bind, Except.bind, hns, hflat fuel le_rfl]

/-- Witness for the amended C5 theorem: the empty path, a same-level wrong
name, and a non-empty path that stops at a nested class all abort with the
same `TypeError`. -/
theorem claim5_witness :
    (Merkle.proof shaModel mmThing 2
      (.vres ("org.test.Thing") [("name", .vstr ("alice"))] [("name", zeros32)]) [] =
      .error (.typeError ("Cannot read properties of null"))) ∧
    (Merkle.proof shaModel mmThing 2
      (.vres ("org.test.Thing") [("name", .vstr ("alice"))] [("name", zeros32)])
      [("bogus")] =
      .error (.typeError ("Cannot read properties of null"))) ∧
    (Merkle.proof shaModel mmOuter 3 recOuterSalted [("inner")] =
      .error (.typeError ("Cannot read properties of null"))) :=
  ⟨claim5_no_leaf_type_error shaModel mmThing 2 ("org.test.Thing") _ _ _ [] rfl rfl rfl rfl,
   claim5_no_leaf_type_error shaModel mmThing 2 ("org.test.Thing") _ _ _ [("bogus")]
     rfl rfl rfl rfl,
   claim5_no_leaf_type_error shaModel mmOuter 3 ("org.test.Outer") _ _ _ [("inner")]
     rfl rfl rfl rfl⟩

/-- Claim C6: for the class `{String name}`, the record
`{name: "alice"}` and a 32-zero-byte salt, the root is the lowercase hex
encoding (64 characters) of
`SHA256(SHA256(utf8 bytes of the quoted JSON string alice || 32 zero
bytes))`: the leaf hash is `SHA256(canonical(value) || salt)` and the node
hash is `SHA256` of the concatenated child digests with no delimiter. -/
theorem claim6_root_formula (sha : Bytes → Bytes)
    (hlen : ∀ x, (sha x).length = 32)
    (hbyte : ∀ x, ∀ b ∈ sha x, b < 256) :
    Merkle.root sha mmThing 2 recAlice =
      .ok (toHex (sha (sha (utf8 ("\x22alice\x22") ++ List.replicate 32 0)))) ∧
    (toHex (sha (sha (utf8 ("\x22alice\x22") ++ List.replicate 32 0)))).length = 64 ∧
    (toHex (sha (sha (utf8 ("\x22alice\x22") ++ List.replicate 32 0)))).data.all
      isLowerHexChar = true := by
  refine ⟨?_, ?_, ?_⟩
  · show Except.ok
      (toHex (sha ([sha (utf8 (jsonStringQuote ("alice")) ++ zeros32)].flatten : Bytes))) = _
    rw [show ([sha (utf8 (jsonStringQuote ("alice")) ++ zeros32)].flatten : Bytes) =
      sha (utf8 (jsonStringQuote ("alice")) ++ zeros32) by simp]
    rfl
  · rw [toHex_length, hlen]
  · exact List.all_eq_true.mpr fun c hc =>
      mem_toHex_isLowerHexChar _ (hbyte _) c hc

/-- Witness for C6 at the concrete hash model. -/
theorem claim6_witness :
    Merkle.root shaModel mmThing 2 recAlice =
      .ok (toHex (shaModel (shaModel (utf8 ("\x22alice\x22") ++ List.replicate 32 0)))) ∧
    (toHex (shaModel (shaModel (utf8 ("\x22alice\x22") ++ List.replicate 32 0)))).length = 64 ∧
    (toHex (shaModel (shaModel (utf8 ("\x22alice\x22") ++ List.replicate 32 0)))).data.all
      isLowerHexChar = true :=
  claim6_root_formula shaModel shaModel_length shaModel_bytes

/-- Claim C7: after `salt(record)` succeeds, every primitive leaf
reachable through primitive and nested-class fields has a salt of exactly
32 bytes in the salt store of the record that directly owns it, and the
top-level store's entries outside the class's own primitive property
names are unchanged (nested salts are never written into the parent's
store). -/
theorem claim7_salts_populated (mm : ModelManager) (rng : Nat → Bytes) (fuel : Nat)
    (fqn : String) (fields : List (String × Value)) (salts : List (String × Bytes))
    (cd : ClassDecl) (r' : Value)
    (hrng : ∀ i, (rng i).length = 32)
    (hcd : alistLookup fqn mm = some cd)
    (h : Merkle.salt mm rng fuel (.vres fqn fields salts) = .ok r') :
    allSaltedLen32 mm fuel cd r' = true ∧
    saltsAgreeOff (primNames cd) (vresSalts r') salts = true := by
  simp only [Merkle.salt, getTypeOf, hcd, bind, Except.bind] at h
  split at h
  · exact absurd h (by simp)
  · next out heq =>
    simp only [Except.ok.injEq] at h
    have hspec := saltVisitClass_spec mm rng hrng fuel cd (.vres fqn fields salts) 0
      out.1 out.2 (by rw [heq])
    rw [h] at hspec
    exact hspec

/-- Witness for C7 at the nested record salted with the zero supply. -/
theorem claim7_witness :
    allSaltedLen32 mmOuter 3
      ⟨[⟨"a", .primitive⟩, ⟨"inner", .nestedClass ("org.test.Inner")⟩]⟩ recOuterSalted = true ∧
    saltsAgreeOff
      (primNames ⟨[⟨"a", .primitive⟩, ⟨"inner", .nestedClass ("org.test.Inner")⟩]⟩)
      (vresSalts recOuterSalted) [] = true :=
  claim7_salts_populated mmOuter rngZero 3 ("org.test.Outer")
    [("a", Value.vstr ("x")), ("inner", Value.vres ("org.test.Inner") [("k", Value.vstr ("v"))] [])]
    [] _ recOuterSalted rngZero_length rfl rfl

/-- Claim C8, counterexample to the claim as stated: the `salt` engine on
the class `{String[] tags}` raises the `NotImplemented` error for array
fields, but its message does not include the property name `tags`. -/
theorem claim8_counterexample :
    Merkle.salt mmTagged rngZero 2 recTagged = .error .notImplementedArrays ∧
    strContains (errMessage Err.notImplementedArrays) ("tags") = false :=
  ⟨rfl, rfl⟩

/-- Claim C8 (amended): for a class with an array-typed property named
`tags`, each of `salt`, `root` and `proof` raises the `NotImplemented`
error for array fields; the error message is the fixed string
"Not implemented for Array fields" and does not contain the property name
`tags`. -/
theorem claim8_amended_not_implemented :
    (∀ (sha : Bytes → Bytes) (rng : Nat → Bytes) (fuel : Nat)
      (fields : List (String × Value)) (salts : List (String × Bytes)) (path : List String),
      Merkle.salt mmTagged rng (fuel + 1) (.vres ("org.test.Tagged") fields salts) =
        .error .notImplementedArrays ∧
      Merkle.root sha mmTagged (fuel + 1) (.vres ("org.test.Tagged") fields salts) =
        .error .notImplementedArrays ∧
      Merkle.proof sha mmTagged (fuel + 1) (.vres ("org.test.Tagged") fields salts) path =
        .error .notImplementedArrays) ∧
    errMessage .notImplementedArrays = "Not implemented for Array fields" ∧
    strContains (errMessage .notImplementedArrays) ("tags") = false :=
  ⟨fun _ _ _ _ _ _ => ⟨rfl, rfl, rfl⟩, rfl, rfl⟩

/-- Claim C9: the root and proof visitors are read-only: the record state
they thread through the walk comes back unchanged, property values and
salt stores included.  (The verify engine does not receive the record at
all, so it cannot modify it.) -/
theorem claim9_read_only :
    (∀ (sha : Bytes → Bytes) (mm : ModelManager) (fuel : Nat) (cd : ClassDecl)
      (r : Value) (d : Bytes) (r' : Value),
      rootVisitClass sha mm fuel cd r = .ok (d, r') → r' = r) ∧
    (∀ (sha : Bytes → Bytes) (mm : ModelManager) (path : List String) (fuel : Nat)
      (cd : ClassDecl) (cp : List String) (r : Value) (nodes : List ProofNode) (r' : Value),
      proofVisitClass sha mm path fuel cd cp r = .ok (nodes, r') → r' = r) :=
  ⟨fun sha mm fuel cd r d r' h => rootVisitClass_preserves sha mm fuel cd r (d, r') h,
   fun sha mm path fuel cd cp r nodes r' h =>
     proofVisitClass_preserves sha mm path fuel cd cp r (nodes, r') h⟩

/-- Witness for C9 at the S1 record. -/
theorem claim9_witness :
    (rootVisitClass shaModel mmThing 2 ⟨[⟨"name", .primitive⟩]⟩ recAlice).map Prod.snd =
      .ok recAlice ∧
    (proofVisitClass shaModel mmThing ["name"] 2 ⟨[⟨"name", .primitive⟩]⟩ [] recAlice).map
      Prod.snd = .ok recAlice := by
  constructor
  · obtain ⟨d, r', hdr⟩ : ∃ d r',
        rootVisitClass shaModel mmThing 2 ⟨[⟨"name", .primitive⟩]⟩ recAlice = .ok (d, r') :=
      ⟨_, _, rfl⟩
    rw [hdr, claim9_read_only.1 shaModel mmThing 2 _ recAlice d r' hdr]
    rfl
  · obtain ⟨nodes, r', hdr⟩ : ∃ nodes r',
        proofVisitClass shaModel mmThing ["name"] 2 ⟨[⟨"name", .primitive⟩]⟩ [] recAlice =
          .ok (nodes, r') := ⟨_, _, rfl⟩
    rw [hdr, claim9_read_only.2 shaModel mmThing ["name"] 2 _ [] recAlice nodes r' hdr]
    rfl

/-- Claim C10: the three engines use one and the same leaf-hash: for any
primitive value with JSON serialisation `sv` and salt `s`, the digest the
root engine computes for a primitive field, the digest the proof engine
emits for a non-disclosed primitive field, and the digest the verify
engine recomputes at the matched leaf are all
`sha(utf8(JSON.stringify(value)) || salt)`. -/
theorem claim10_shared_leaf_hash (sha : Bytes → Bytes) (mm : ModelManager)
    (recurseR : ClassDecl → Value → Except Err (Bytes × Value))
    (recurseP : ClassDecl → List String → Value → Except Err (List ProofNode × Value))
    (recurseV : ClassDecl → List String → HashPairs → Except Err (Option Bytes × HashPairs))
    (q : PropDecl) (v : Value) (s : Bytes) (sv : String)
    (path cpP cpV : List String) (hashes : HashPairs)
    (hk : q.kind = .primitive)
    (hsv : jsonStringify v = some sv)
    (hpeP : pathEquals path cpP = false)
    (hpeV : pathEquals path cpV = true) :
    rootVisitProp sha mm recurseR q v (some s) = .ok (sha (utf8 sv ++ s), v) ∧
    proofVisitProp sha mm path recurseP q cpP v (some s) =
      .ok (.digest (sha (utf8 sv ++ s)), v) ∧
    verifyVisitProp sha mm path v s recurseV q cpV hashes =
      .ok (some (sha (utf8 sv ++ s)), hashes) := by
  refine ⟨?_, ?_, ?_⟩
  · simp [rootVisitProp, hk, hsv]
  · simp [proofVisitProp, hk, hpeP, hsv]
  · simp [verifyVisitProp, hk, hpeV, hsv]

/-- Witness for C10 at the value "alice" with the zero salt. -/
theorem claim10_witness :
    rootVisitProp shaModel mmThing (fun _ v => .ok ([], v)) ⟨"name", .primitive⟩
      (.vstr ("alice")) (some zeros32) =
      .ok (shaModel (utf8 ("\x22alice\x22") ++ zeros32), .vstr ("alice")) ∧
    proofVisitProp shaModel mmThing ["name"] (fun _ _ v => .ok ([], v)) ⟨"name", .primitive⟩
      ["x"] (.vstr ("alice")) (some zeros32) =
      .ok (.digest (shaModel (utf8 ("\x22alice\x22") ++ zeros32)), .vstr ("alice")) ∧
    verifyVisitProp shaModel mmThing ["name"] (.vstr ("alice")) zeros32
      (fun _ _ h => .ok (none, h)) ⟨"name", .primitive⟩ ["name"] [] =
      .ok (some (shaModel (utf8 ("\x22alice\x22") ++ zeros32)), []) :=
  claim10_shared_leaf_hash shaModel mmThing _ _ _ _ _ _ _ _ _ _ _ rfl rfl rfl rfl



end Concerto
